import Mathlib

set_option linter.unusedSectionVars false

/-!
# Verification of the `inverted_index` crate

A shallow embedding of the inverted-index library: the merge/coalesce
primitives (`src/util/coalesce.rs`), the multi-map key intersection
iterator (`src/util/btree_map_ext.rs`), the character successor
(`src/util/successor.rs`), the analyzers (`src/analyzers.rs`), the
postings operations (`src/postings.rs`) and the index itself
(`src/index.rs`), together with theorems settling the specification
claims about them.

`BTreeMap`s are embedded as association lists sorted strictly by key;
`Vec`s as `List`s.  Rust strings are embedded as `List Char`
(lexicographic order on code points coincides with Rust's byte-wise
`Ord` on UTF-8 strings).  `usize` values (byte offsets, token positions,
document ids) are embedded as `Nat`; none of the modelled arithmetic can
overflow a 64-bit machine for representable inputs, and none of it wraps.
-/

/-- Rust `String` / `&str`, as its sequence of Unicode scalar values. -/
abbrev Str := List Char

/-- Convert a Lean string literal to the embedded string type. -/
def str (s : String) : Str := s.data

/-- The `Merge` trait of `src/util/coalesce.rs`: merging two items, if possible. -/
class MergeOp (T : Type) where
  merge : T → T → Option T

/-- `impl Merge for (usize, usize)` (`impl_merge_tuples!`): intervals merge when
they touch or overlap.  The source asserts `begin2 >= begin1`; every call site
feeds pairs in nondecreasing order of `begin`, and the model returns `none`
where the source would assert, which no theorem below relies on. -/
instance : MergeOp (Nat × Nat) where
  merge a b :=
    if b.1 ≥ a.1 then
      if a.2 ≥ b.1 then some (if a.2 < b.2 then (a.1, b.2) else (a.1, a.2)) else none
    else none

/-- `Position` from `src/postings.rs`: byte offsets plus token position. -/
structure Position where
  offsets : Nat × Nat
  position : Nat
  deriving DecidableEq

/-- The key realising the derived lexicographic `Ord` on `Position`
(fields in declaration order: `offsets`, then `position`). -/
def Position.key (p : Position) : Nat ×ₗ (Nat ×ₗ Nat) :=
  toLex (p.offsets.1, toLex (p.offsets.2, p.position))

theorem Position.key_injective : Function.Injective Position.key := by
  rintro ⟨⟨a, b⟩, c⟩ ⟨⟨d, e⟩, f⟩ h
  simp only [Position.key, toLex, Equiv.refl_apply, Prod.mk.injEq] at h
  simp_all

instance : LinearOrder Position := LinearOrder.lift' Position.key Position.key_injective

/-- `impl Merge for Position`: merge only at equal token positions. -/
instance : MergeOp Position where
  merge a b :=
    if a.position = b.position then
      (MergeOp.merge a.offsets b.offsets).map (fun o => ⟨o, a.position⟩)
    else none

/-- `Vec::insert(index, el)`: insert before position `index`.
(The source panics when `index > len`; all call sites stay in bounds,
where this model appends instead.) -/
def insertAt {T : Type} (l : List T) (n : Nat) (el : T) : List T :=
  match n with
  | 0 => el :: l
  | n' + 1 =>
    match l with
    | [] => [el]
    | x :: xs => x :: insertAt xs n' el

theorem insertAt_get?_self {T : Type} (l : List T) (n : Nat) (el : T) (h : n ≤ l.length) :
    (insertAt l n el).get? n = some el := by
  induction l generalizing n with
  | nil =>
    have : n = 0 := by simpa using h
    subst this
    rfl
  | cons x xs ih =>
    cases n with
    | zero => rfl
    | succ m => exact ih m (by simpa using h)

section Coalesce

variable {T : Type} [LinearOrder T] [DecidableEq T] [MergeOp T]

/-- `Vec::<T>::coalesce` from `src/util/coalesce.rs`: insert-or-merge `el`
at position `index`. -/
def coalesce (v : List T) (index : Nat) (el : T) : List T :=
  if v = [] then insertAt v index el
  else if index = 0 then
    match MergeOp.merge el (v.getD 0 el) with
    | some c => v.set 0 c
    | none => insertAt v 0 el
  else if index = v.length then
    match MergeOp.merge (v.getD (index - 1) el) el with
    | some c => v.set (index - 1) c
    | none => insertAt v index el
  else
    match MergeOp.merge (v.getD (index - 1) el) el with
    | some c =>
      let v₁ := v.set (index - 1) c
      match MergeOp.merge c (v₁.getD index el) with
      | some c₂ => (v₁.set (index - 1) c₂).eraseIdx index
      | none => v₁
    | none =>
      match MergeOp.merge el (v.getD index el) with
      | some c => v.set index c
      | none => insertAt v index el

/-- The insertion point of `el` in a sorted list: the number of elements
strictly below `el`.  This realises `slice::binary_search` through its
contract; every call site searches a (suffix of a) strictly sorted vector,
on which the contract determines the result uniquely. -/
def lowerCount (v : List T) (el : T) : Nat :=
  (v.filter (fun x => x < el)).length

/-- `search_coalesce` from `src/util/coalesce.rs`: binary-search `v[start..]`
for `el`; on a hit return the absolute index unchanged, on a miss `coalesce`
at the insertion index.  Returns the index together with the updated vector. -/
def searchCoalesce (v : List T) (start : Nat) (el : T) : Nat × List T :=
  let tail := v.drop start
  let idx := lowerCount tail el
  if tail.get? idx = some el then (start + idx, v)
  else (start + idx, coalesce v (start + idx) el)

/-- `merge_coalesce`: stream the elements of `other` (ascending) into `v`,
threading the returned index as the next start. -/
def mergeCoalesce (v : List T) (other : List T) : List T :=
  (other.foldl (fun p el => ((searchCoalesce p.1 p.2 el).2, (searchCoalesce p.1 p.2 el).1)) (v, 0)).1

end Coalesce

section SortedMap

variable {K : Type} {V : Type} [LinearOrder K] [DecidableEq K]

/-- `BTreeMap::get`. -/
def mlookup (k : K) : List (K × V) → Option V
  | [] => none
  | (k', v) :: rest => if k = k' then some v else mlookup k rest

/-- `BTreeMap::insert` on a key-sorted association list. -/
def minsert (k : K) (v : V) : List (K × V) → List (K × V)
  | [] => [(k, v)]
  | (k', v') :: rest =>
    if k < k' then (k, v) :: (k', v') :: rest
    else if k = k' then (k, v) :: rest
    else (k', v') :: minsert k v rest

/-- `BTreeMap::remove` (dropping the returned value). -/
def merase (k : K) : List (K × V) → List (K × V)
  | [] => []
  | (k', v') :: rest => if k = k' then rest else (k', v') :: merase k rest

/-- `BTreeMap::entry(k).or_insert_with(|| d)` followed by an in-place
update of the entry by `f`. -/
def mupsert (k : K) (d : V) (f : V → V) (m : List (K × V)) : List (K × V) :=
  minsert k (f ((mlookup k m).getD d)) m

/-- Keys sorted strictly ascending: the `BTreeMap` representation invariant. -/
def msorted (m : List (K × V)) : Prop :=
  (m.map Prod.fst).Pairwise (· < ·)

theorem mlookup_minsert (k j : K) (v : V) (m : List (K × V)) :
    mlookup j (minsert k v m) = if j = k then some v else mlookup j m := by
  induction m with
  | nil => simp [minsert, mlookup]
  | cons e rest ih =>
    obtain ⟨k', v'⟩ := e
    simp only [minsert]
    by_cases h1 : k < k'
    · rw [if_pos h1]
      by_cases h3 : j = k' <;> by_cases h4 : j = k <;> simp_all [mlookup]
    · rw [if_neg h1]
      by_cases h2 : k = k'
      · rw [if_pos h2]
        subst h2
        by_cases h4 : j = k <;> simp_all [mlookup]
      · rw [if_neg h2]
        by_cases h3 : j = k' <;> by_cases h4 : j = k <;> simp_all [mlookup]

theorem mlookup_eq_none_iff (j : K) (m : List (K × V)) :
    mlookup j m = none ↔ j ∉ m.map Prod.fst := by
  induction m with
  | nil => simp [mlookup]
  | cons e rest ih =>
    obtain ⟨k', v'⟩ := e
    by_cases h : j = k' <;> simp [mlookup, h, ih]

theorem mlookup_merase (j k : K) (m : List (K × V))
    (hnd : (m.map Prod.fst).Nodup) :
    mlookup j (merase k m) = if j = k then none else mlookup j m := by
  induction m with
  | nil => simp [merase, mlookup]
  | cons e rest ih =>
    obtain ⟨k', v'⟩ := e
    simp only [List.map_cons, List.nodup_cons] at hnd
    have ih2 := ih hnd.2
    simp only [merase]
    by_cases h1 : k = k'
    · rw [if_pos h1]
      subst h1
      by_cases h2 : j = k
      · subst h2
        simp [(mlookup_eq_none_iff j rest).2 hnd.1]
      · simp [mlookup, h2]
    · rw [if_neg h1]
      by_cases h2 : j = k' <;> by_cases h3 : j = k <;> simp_all [mlookup]

theorem msorted_nodup (m : List (K × V)) (h : msorted m) : (m.map Prod.fst).Nodup :=
  h.imp ne_of_lt

theorem mlookup_eq_none_of_forall_lt (j : K) (m : List (K × V))
    (h : ∀ k ∈ m.map Prod.fst, j < k) : mlookup j m = none := by
  induction m with
  | nil => rfl
  | cons e rest ih =>
    obtain ⟨k', v'⟩ := e
    have hj : j < k' := h k' (by simp)
    rw [mlookup, if_neg (ne_of_lt hj)]
    exact ih (fun k hk => h k (by simp [hk]))

theorem mem_keys_minsert (j k : K) (v : V) (m : List (K × V)) :
    j ∈ (minsert k v m).map Prod.fst ↔ j = k ∨ j ∈ m.map Prod.fst := by
  induction m with
  | nil => simp [minsert]
  | cons e rest ih =>
    obtain ⟨k', v'⟩ := e
    simp only [minsert]
    split_ifs with h1 h2
    · simp
    · subst h2
      simp only [List.map_cons, List.mem_cons]
      tauto
    · simp only [List.map_cons, List.mem_cons, ih]
      tauto

theorem msorted_minsert (k : K) (v : V) (m : List (K × V)) (h : msorted m) :
    msorted (minsert k v m) := by
  induction m with
  | nil => simp [minsert, msorted]
  | cons e rest ih =>
    obtain ⟨k', v'⟩ := e
    simp only [msorted, List.map_cons, List.pairwise_cons] at h
    simp only [minsert]
    split_ifs with h1 h2
    · simp only [msorted, List.map_cons, List.pairwise_cons]
      refine ⟨?_, ?_, h.2⟩
      · intro b hb
        simp only [List.map_cons, List.mem_cons] at hb
        rcases hb with rfl | hb
        · exact h1
        · exact lt_trans h1 (h.1 b hb)
      · exact h.1
    · subst h2
      simp only [msorted, List.map_cons, List.pairwise_cons]
      exact h
    · simp only [msorted, List.map_cons, List.pairwise_cons]
      refine ⟨?_, ih h.2⟩
      intro b hb
      rcases (mem_keys_minsert b k v rest).1 hb with rfl | hb2
      · exact lt_of_le_of_ne (not_lt.1 h1) (Ne.symm h2)
      · exact h.1 b hb2

end SortedMap

/-! ## Analyzers (`src/analyzers.rs`)

Both analyzers split on Unicode whitespace, number the surviving words
from 0, and lowercase the produced terms; offsets index into the original
string in bytes. -/

/-- `char::is_whitespace`: the Unicode `White_Space` property. -/
def isWsChar (c : Char) : Bool :=
  [0x09, 0x0A, 0x0B, 0x0C, 0x0D, 0x20, 0x85, 0xA0, 0x1680,
   0x2000, 0x2001, 0x2002, 0x2003, 0x2004, 0x2005, 0x2006, 0x2007,
   0x2008, 0x2009, 0x200A, 0x2028, 0x2029, 0x202F, 0x205F, 0x3000].contains c.toNat

/-- `char::to_lowercase()` as iterated by `flat_map`.  The full Unicode
lowering table lives in the standard library, outside this crate; the model
covers its ASCII fragment (every input exercised by the claims is ASCII),
as a one-character expansion. -/
def charLower (c : Char) : List Char := [c.toLower]

/-- `str::char_indices` starting from byte offset `off`: each character
paired with its byte offset. -/
def charIndicesFrom (off : Nat) : Str → List (Nat × Char)
  | [] => []
  | c :: cs => (off, c) :: charIndicesFrom (off + c.utf8Size) cs

/-- itertools `group_by(key)`: maximal runs of adjacent elements with equal
key, each run tagged with its key. -/
def runsBy (key : Nat × Char → Bool) : List (Nat × Char) → List (Bool × List (Nat × Char))
  | [] => []
  | x :: xs =>
    match runsBy key xs with
    | [] => [(key x, [x])]
    | (b, g) :: rest =>
      if key x = b then (b, x :: g) :: rest else (key x, [x]) :: (b, g) :: rest

/-- The whitespace-delimited words of a string, in order: for each word the
list of its characters with their byte offsets
(`char_indices ∘ group_by(is_whitespace) ∘ filter(!ws)`). -/
def wordsOf (s : Str) : List (List (Nat × Char)) :=
  ((runsBy (fun p => isWsChar p.2) (charIndicesFrom 0 s)).filter (fun g => !g.1)).map (fun g => g.2)

/-- `Ngrams::call`: the lowercased length-`k` character prefix of the word
`chars`, with byte offsets from the word start to the end of its `k`-th
character, at token position `position`.  Every call site has
`1 ≤ k ≤ chars.length`, so the `getD`/`headD` defaults are never read. -/
def ngramCall (position : Nat) (chars : List (Nat × Char)) (k : Nat) : Str × Position :=
  ((chars.take k).flatMap (fun p => charLower p.2),
   ⟨((chars.headD (0, ' ')).1,
     (chars.getD (k - 1) (0, ' ')).1 + (chars.getD (k - 1) (0, ' ')).2.utf8Size),
    position⟩)

/-- `NgramsAnalyzer::analyze`: every nonempty character prefix of every
word, in (word, prefix-length) order. -/
def ngramsAnalyze (s : Str) : List (Str × Position) :=
  (wordsOf s).enum.flatMap (fun pc => (List.range' 1 pc.2.length).map (ngramCall pc.1 pc.2))

/-- `WhitespaceAnalyzer::analyze`: one token per word (the full word). -/
def whitespaceAnalyze (s : Str) : List (Str × Position) :=
  (wordsOf s).enum.map (fun pc => ngramCall pc.1 pc.2 pc.2.length)

/-- `Analyzer::analyze_tokens` for the whitespace analyzer: terms only. -/
def whitespaceTokens (s : Str) : List Str :=
  (whitespaceAnalyze s).map (fun tp => tp.1)

/-- itertools `unique()`: deduplicate, keeping first occurrences, with
`seen` the set of already-emitted tokens. -/
def uniqueAux (seen : List Str) : List Str → List Str
  | [] => []
  | x :: xs => if x ∈ seen then uniqueAux seen xs else x :: uniqueAux (x :: seen) xs

/-! ## Character successor (`src/util/successor.rs`) -/

/-- `char::from_u32`: `none` on surrogates and values above the maximum
code point. -/
def charFromU32 (n : Nat) : Option Char :=
  if (0xD800 ≤ n ∧ n ≤ 0xDFFF) ∨ 0x10FFFF < n then none else some (Char.ofNat n)

/-- `Successor for char`: `c + 1`, jumping the surrogate gap. -/
def Char.successor (c : Char) : Option Char :=
  if c.toNat = 0xD7FF then charFromU32 0xE000 else charFromU32 (c.toNat + 1)

/-! ## Multi-map key intersection (`src/util/btree_map_ext.rs`)

`Intersection` holds one key iterator per map; embedded as the list of
each iterator's remaining elements. -/

/-- `Iterator::find(|x| x >= m)`: drop elements below `m`, return the first
match and the iterator's remainder. -/
def findGe {K : Type} [LinearOrder K] (m : K) : List K → Option (K × List K)
  | [] => none
  | x :: xs => if m ≤ x then some (x, xs) else findGe m xs

/-- Total number of elements remaining across all iterators. -/
def totalSize {K : Type} (l : List (List K)) : Nat := (l.map List.length).sum

theorem findGe_length {K : Type} [LinearOrder K] (m : K) (l : List K) (v : K) (r : List K)
    (h : findGe m l = some (v, r)) : r.length < l.length := by
  induction l with
  | nil => simp [findGe] at h
  | cons x xs ih =>
    simp only [findGe] at h
    split at h
    · cases h
      simp
    · exact Nat.lt_trans (ih h) (by simp)

theorem totalSize_set {K : Type} (l : List (List K)) (i : Nat) (x : List K)
    (h : i < l.length) :
    totalSize (l.set i x) + (l.getD i []).length = totalSize l + x.length := by
  induction l generalizing i with
  | nil => simp at h
  | cons y ys ih =>
    cases i with
    | zero =>
      simp [totalSize]
      omega
    | succ j =>
      have := ih j (by simpa using h)
      simp only [List.set, List.getD] at *
      simp [totalSize] at *
      omega

/-- Steps remaining before the retry loop must have terminated, from
position `i` of the pass: every iteration either consumes an element
(bounding passes by `totalSize`) or advances `i` within the pass. -/
def scanMeasure {K : Type} (iters : List (List K)) (i : Nat) : Nat :=
  totalSize iters * (iters.length + 1) + (iters.length - i)

/-- The retry loop inside `Intersection::next`, with explicit fuel
(structural recursion; the wrapper `scanFrom` supplies fuel exceeding
`scanMeasure`, which the loop never exhausts): starting from candidate
`mx` (drawn from iterator `skip`), advance every other iterator to the
first key `≥ mx`; on overshoot `val > mx` restart with `val` as the new
candidate and its iterator as the new origin; on exhaustion of an
iterator the whole `next` returns `None`. -/
def scanFromF {K : Type} [LinearOrder K] :
    Nat → List (List K) → K → Nat → Nat → Option (K × List (List K))
  | 0, _, _, _, _ => none
  | fuel + 1, iters, mx, skip, i =>
    if i < iters.length then
      if i = skip then scanFromF fuel iters mx skip (i + 1)
      else match findGe mx (iters.getD i []) with
        | none => none
        | some (val, rest) =>
          if mx < val then scanFromF fuel (iters.set i rest) val i 0
          else scanFromF fuel (iters.set i rest) mx skip (i + 1)
    else some (mx, iters)

/-- The retry loop at its canonical fuel. -/
def scanFrom {K : Type} [LinearOrder K] (iters : List (List K)) (mx : K) (skip i : Nat) :
    Option (K × List (List K)) :=
  scanFromF (scanMeasure iters i + 1) iters mx skip i

/-- `Intersection::next`: pop the first iterator's head as the candidate,
then run the retry loop. -/
def interNext {K : Type} [LinearOrder K] : List (List K) → Option (K × List (List K))
  | [] => none
  | [] :: _ => none
  | (m :: tl) :: rest => scanFrom (tl :: rest) m 0 0

theorem scanFromF_size {K : Type} [LinearOrder K] (fuel : Nat) (iters : List (List K))
    (mx : K) (skip i : Nat) (res : K) (out : List (List K))
    (h : scanFromF fuel iters mx skip i = some (res, out)) :
    totalSize out ≤ totalSize iters ∧ out.length = iters.length := by
  induction fuel generalizing iters mx skip i with
  | zero => exact Option.noConfusion h
  | succ fuel ih =>
    rw [scanFromF] at h
    by_cases hlt : i < iters.length
    · rw [if_pos hlt] at h
      by_cases hsk : i = skip
      · rw [if_pos hsk] at h
        exact ih _ _ _ _ h
      · rw [if_neg hsk] at h
        cases hf : findGe mx (iters.getD i []) with
        | none =>
          rw [hf] at h
          exact Option.noConfusion h
        | some vr =>
          obtain ⟨val, rest⟩ := vr
          rw [hf] at h
          dsimp only at h
          have h2 := totalSize_set iters i rest hlt
          have h3 := findGe_length _ _ _ _ hf
          by_cases hv : mx < val
          · rw [if_pos hv] at h
            have := ih _ _ _ _ h
            constructor
            · omega
            · simpa using this.2
          · rw [if_neg hv] at h
            have := ih _ _ _ _ h
            constructor
            · omega
            · simpa using this.2
    · rw [if_neg hlt] at h
      cases h
      exact ⟨le_refl _, rfl⟩

theorem interNext_size {K : Type} [LinearOrder K] (iters : List (List K)) (res : K)
    (out : List (List K)) (h : interNext iters = some (res, out)) :
    totalSize out < totalSize iters := by
  match iters with
  | [] => simp [interNext] at h
  | [] :: _ => simp [interNext] at h
  | (m :: tl) :: rest =>
    have := (scanFromF_size _ _ _ _ _ _ _ h).1
    simp [totalSize] at *
    omega

/-- Draining the `Intersection` iterator with explicit fuel (each emitted
key consumes at least one element, so `totalSize` bounds the length). -/
def interToListF {K : Type} [LinearOrder K] : Nat → List (List K) → List K
  | 0, _ => []
  | fuel + 1, iters =>
    match interNext iters with
    | none => []
    | some (k, iters') => k :: interToListF fuel iters'

/-- Drain the `Intersection` iterator: the full emitted key sequence. -/
def interToList {K : Type} [LinearOrder K] (iters : List (List K)) : List K :=
  interToListF (totalSize iters + 1) iters

/-! ## Postings (`src/postings.rs`) -/

/-- `PostingsMap`: doc id to positions, an ordered map. -/
abbrev PostingsMap := List (Nat × List Position)

/-- The two-cursor walk of `intersect_positionally` on `[Position]`:
`acc` is the `intersection` vector, `xs`/`ys` the unconsumed suffixes
behind the cursors. -/
def ipWalk : Nat → List Position → List Position → List Position → List Position
  | 0, _, _, acc => acc
  | _ + 1, [], _, acc => acc
  | _ + 1, _ :: _, [], acc => acc
  | fuel + 1, l :: ls, r :: rs, acc =>
    if l.position < r.position then
      if l.position + 1 = r.position then
        ipWalk fuel ls rs ((if acc.getLast? = some l then acc else acc ++ [l]) ++ [r])
      else ipWalk fuel ls (r :: rs) acc
    else ipWalk fuel (l :: ls) rs acc

/-- `intersect_positionally` on position lists.  Every loop iteration
advances a cursor, so fuel `|xs| + |ys|` is never exhausted. -/
def intersectPositionally (xs ys : List Position) : List Position :=
  ipWalk (xs.length + ys.length) xs ys []

/-- `BTreeMap` indexing with a default; the source's `map[&k]` panics on a
missing key, and every use below looks up keys known to be present. -/
def plookup (i : Nat) (m : PostingsMap) : List Position := (mlookup i m).getD []

/-- `intersect_positionally` on `PostingsMap`s: walk the common doc ids
(ascending) and positionally intersect the two position lists of each. -/
def intersectPositionallyMap (m other : PostingsMap) : PostingsMap :=
  (interToList [m.map Prod.fst, other.map Prod.fst]).foldl
    (fun acc i => minsert i (intersectPositionally (plookup i m) (plookup i other)) acc) []

/-- `intersect_postings` on a slice of `PostingsMap`s: empty slice gives the
empty map, a singleton is cloned, otherwise intersect all key sets and
merge-coalesce the positions of every map per surviving document. -/
def intersectPostings : List PostingsMap → PostingsMap
  | [] => []
  | [m] => m
  | m0 :: m1 :: ms =>
    (interToList ((m0 :: m1 :: ms).map (fun m => m.map Prod.fst))).foldl
      (fun acc i =>
        minsert i ((m1 :: ms).foldl (fun ps m => mergeCoalesce ps (plookup i m)) (plookup i m0)) acc)
      []

/-- Collecting `(doc id, positions)` pairs into a `MergeCoalesceMap`: fresh
keys are inserted, duplicate keys `merge_coalesce` into the stored list. -/
def mergeCollect (pairs : List (Nat × List Position)) : PostingsMap :=
  pairs.foldl (fun acc kv =>
    match mlookup kv.1 acc with
    | none => minsert kv.1 kv.2 acc
    | some old => minsert kv.1 (mergeCoalesce old kv.2) acc) []

/-! ## The index (`src/index.rs`)

The embedding fixes the default analyzer slots of `InvertedIndex`:
`WhitespaceAnalyzer` for queries and `NgramsAnalyzer` for documents
(`InvertedIndex::new`), which is the instantiation the claims concern. -/

/-- A document: id and content (`src/index.rs` keys `docs` by `usize`). -/
structure Document where
  id : Nat
  content : Str
  deriving DecidableEq

/-- The inverted index: terms to postings, plus the document store. -/
structure InvertedIndex where
  index : List (Str × PostingsMap)
  docs : List (Nat × Document)
  deriving DecidableEq

/-- `InvertedIndex::new`. -/
def InvertedIndex.new : InvertedIndex := ⟨[], []⟩

/-- One step of the removal replay in `InvertedIndex::index`: look up the
term's postings map (`unwrap` — a panic, modelled as `Except.error`, when
absent), remove the doc id from it, and drop the term entirely when the
map empties. -/
def removeStep (docId : Nat) (terms : List (Str × PostingsMap)) (t : Str) :
    Except String (List (Str × PostingsMap)) :=
  match mlookup t terms with
  | none => Except.error "called Option::unwrap() on a None value"
  | some pm =>
    let pm' := merase docId pm
    if pm' = [] then Except.ok (merase t terms) else Except.ok (minsert t pm' terms)

/-- The removal replay over all terms of the previous content, in stream
order. -/
def removalPhase (docId : Nat) (ts : List Str) (terms : List (Str × PostingsMap)) :
    Except String (List (Str × PostingsMap)) :=
  match ts with
  | [] => Except.ok terms
  | t :: rest =>
    match removeStep docId terms t with
    | Except.error e => Except.error e
    | Except.ok terms' => removalPhase docId rest terms'

/-- One step of the insert loop of `InvertedIndex::index`:
`index.entry(ngram).or_default().entry(doc.id).or_default()
.search_coalesce(0, position)`. -/
def termInsert (docId : Nat) (terms : List (Str × PostingsMap)) (tp : Str × Position) :
    List (Str × PostingsMap) :=
  mupsert tp.1 [] (fun pm => mupsert docId [] (fun pl => (searchCoalesce pl 0 tp.2).2) pm) terms

/-- The insert loop over the analyzed new content, in stream order. -/
def insertPhase (docId : Nat) (tps : List (Str × Position))
    (terms : List (Str × PostingsMap)) : List (Str × PostingsMap) :=
  tps.foldl (termInsert docId) terms

/-- `InvertedIndex::index(doc)`: store the document (keeping the previous
version, if any), replay the document analyzer over the previous content
removing its `(term, doc id)` entries, then insert the analyzed new
content.  Rust panics surface as `Except.error`. -/
def InvertedIndex.indexDoc (st : InvertedIndex) (doc : Document) : Except String InvertedIndex :=
  let prev := mlookup doc.id st.docs
  let docs' := minsert doc.id doc st.docs
  match prev with
  | none => Except.ok ⟨insertPhase doc.id (ngramsAnalyze doc.content) st.index, docs'⟩
  | some prevDoc =>
    match removalPhase doc.id ((ngramsAnalyze prevDoc.content).map (fun tp => tp.1)) st.index with
    | Except.error e => Except.error e
    | Except.ok terms' =>
      Except.ok ⟨insertPhase doc.id (ngramsAnalyze doc.content) terms', docs'⟩

/-- Index a sequence of documents starting from `st`. -/
def buildFrom (st : InvertedIndex) : List Document → Except String InvertedIndex
  | [] => Except.ok st
  | d :: ds =>
    match st.indexDoc d with
    | Except.error e => Except.error e
    | Except.ok st' => buildFrom st' ds

/-- Index a sequence of documents into a fresh index. -/
def buildIndex (ds : List Document) : Except String InvertedIndex :=
  buildFrom InvertedIndex.new ds

/-- The `Query` tree of `src/query.rs`. -/
inductive Query where
  | Match : Str → Query
  | And : List Query → Query
  | Or : List Query → Query
  | Phrase : Str → Query
  | Prefix : Str → Query

/-- `InvertedIndex::postings`: tokenize with the query analyzer,
deduplicate, look each token up, and union the found maps with
per-document merge-coalesce. -/
def InvertedIndex.postingsFor (st : InvertedIndex) (q : Str) : PostingsMap :=
  mergeCollect
    (((uniqueAux [] (whitespaceTokens q)).filterMap (fun w => mlookup w st.index)).flatMap
      (fun m => m))

/-- `InvertedIndex::phrase`: positionally intersect each adjacent token
pair's postings maps (an absent term contributes an empty map), then
intersect the per-pair maps. -/
def InvertedIndex.phrase (st : InvertedIndex) (p : Str) : PostingsMap :=
  let terms := whitespaceTokens p
  let postings := (terms.zip terms.tail).map (fun t2 =>
    match mlookup t2.1 st.index, mlookup t2.2 st.index with
    | some p0, some p1 => intersectPositionallyMap p0 p1
    | _, _ => [])
  intersectPostings postings

/-- `std::collections::Bound` as used by `InvertedIndex::prefix` for the
upper end of the term range (the lower end is always `Included(prefix)`). -/
inductive RangeMax where
  | excluded : Str → RangeMax
  | unbounded : RangeMax

/-- Membership of a term in the scanned range `[lo, hi)`. -/
def inTermRange (lo : Str) (hi : RangeMax) (t : Str) : Bool :=
  decide (lo ≤ t) &&
    match hi with
    | RangeMax.excluded u => decide (t < u)
    | RangeMax.unbounded => true

/-- `InvertedIndex::prefix`: empty prefixes give the empty map; otherwise
pop the last character, replace it by its successor to form the exclusive
upper bound (unbounded when no successor exists), and union the postings
maps of all terms in the range. -/
def InvertedIndex.prefixScan (st : InvertedIndex) (p : Str) : PostingsMap :=
  if p = [] then []
  else
    let c := p.getLast?.getD ' '
    let stem := p.dropLast
    let hi := match c.successor with
      | some c' => RangeMax.excluded (stem ++ [c'])
      | none => RangeMax.unbounded
    mergeCollect
      (((st.index.filter (fun e => inTermRange p hi e.1)).map (fun e => e.2)).flatMap
        (fun m => m))

mutual

/-- `InvertedIndex::query_rec`: evaluate a query tree to a postings map. -/
def InvertedIndex.queryRec (st : InvertedIndex) : Query → PostingsMap
  | Query.Match q => st.postingsFor q
  | Query.And qs => intersectPostings (InvertedIndex.queryList st qs)
  | Query.Or qs => mergeCollect ((InvertedIndex.queryList st qs).flatMap (fun m => m))
  | Query.Phrase p => st.phrase p
  | Query.Prefix p => st.prefixScan p

/-- The evaluation of a sub-query list (`queries.iter().map(query_rec)`). -/
def InvertedIndex.queryList (st : InvertedIndex) : List Query → List PostingsMap
  | [] => []
  | q :: qs => InvertedIndex.queryRec st q :: InvertedIndex.queryList st qs

end

/-- `SearchResult` (`src/index/search_result.rs`): the document and the
matched positions.  The `f32` score field is not carried: floating-point
arithmetic is outside the embedding; the ranking comparison below works
with the exact value the score rounds from. -/
structure SearchResult where
  doc : Document
  positions : List Position
  deriving DecidableEq

/-- Sum of `end - begin` over the positions: the score's numerator. -/
def sumLens (ps : List Position) : Nat :=
  (ps.map (fun p => p.offsets.2 - p.offsets.1)).sum

/-- `str::len`: content length in bytes. -/
def byteLen (s : Str) : Nat := (s.map Char.utf8Size).sum

/-- `score(r1) ≤ score(r2)` for the exact scores
`sumLens / sqrt(byteLen)` (both sides squared; scores are nonnegative). -/
def scoreLe (r1 r2 : SearchResult) : Bool :=
  decide (sumLens r1.positions ^ 2 * byteLen r2.doc.content ≤
    sumLens r2.positions ^ 2 * byteLen r1.doc.content)

/-- Insert into a descending-by-score list, after equal scores (the
stable placement of `sort_by`). -/
def insertDesc (r : SearchResult) : List SearchResult → List SearchResult
  | [] => [r]
  | x :: xs => if scoreLe r x then x :: insertDesc r xs else r :: x :: xs

/-- `results.sort_by(|r1, r2| r2.score.partial_cmp(&r1.score).unwrap())`:
a stable descending sort. -/
def sortByScoreDesc (rs : List SearchResult) : List SearchResult :=
  rs.foldl (fun acc r => insertDesc r acc) []

/-- `InvertedIndex::compute_results`: build a `SearchResult` per document
of the postings map (`self.docs[&doc_id]` panics on a missing id; the
model's default is never read on states built by `indexDoc`) and sort by
score descending. -/
def InvertedIndex.computeResults (st : InvertedIndex) (postings : PostingsMap) :
    List SearchResult :=
  sortByScoreDesc (postings.map (fun e => ⟨(mlookup e.1 st.docs).getD ⟨e.1, []⟩, e.2⟩))

/-- `InvertedIndex::query`. -/
def InvertedIndex.query (st : InvertedIndex) (q : Query) : List SearchResult :=
  st.computeResults (st.queryRec q)

/-- `InvertedIndex::search`. -/
def InvertedIndex.search (st : InvertedIndex) (q : Str) : List SearchResult :=
  st.query (Query.Match q)

/-! ## Claim theorems -/

/-- Extract the state of a successful `indexDoc`/`buildIndex` run. -/
def getOk (e : Except String InvertedIndex) : InvertedIndex :=
  match e with
  | Except.ok st => st
  | Except.error _ => InvertedIndex.new

/-- C1: the claim says `index(doc)` never panics on well-formed UTF-8 and in
particular that, while replaying the previous content of a replaced
document, duplicate term yields are tolerated as no-ops.  The code
contradicts this: re-indexing id 0 after `"is is"` (whose ngram stream
yields the term `"i"` twice) removes the term `"i"` from the index when
its postings map empties at the first yield, and the second yield then
unwraps `None` — a panic (`Except.error` in the model), on fully
well-formed ASCII input. -/
theorem indexDoc_panics_on_duplicate_prev_terms :
    buildIndex [⟨0, str "is is"⟩] =
        Except.ok (getOk (buildIndex [⟨0, str "is is"⟩])) ∧
      mlookup 0 (getOk (buildIndex [⟨0, str "is is"⟩])).docs = some ⟨0, str "is is"⟩ ∧
      (getOk (buildIndex [⟨0, str "is is"⟩])).indexDoc ⟨0, str "x"⟩ =
        Except.error "called Option::unwrap() on a None value" :=
  ⟨rfl, rfl, rfl⟩

/-- The postings list that `Phrase("a ab")` produces for document 1 of the
index over `{1: "a ab ab"}`: out of order at entries 1 and 2, which are
moreover mergeable. -/
def c3Posting : List Position := [⟨(0, 1), 0⟩, ⟨(2, 4), 1⟩, ⟨(2, 3), 1⟩, ⟨(5, 7), 2⟩]

/-- C3: the claim says every `PostingsList` stored in the index or produced
by query evaluation is strictly increasing with no mergeable neighbours.
The code violates it: on the index over `{1: "a ab ab"}`, evaluating
`Phrase("a ab")` produces for document 1 the list
`[(0,1)@0, (2,4)@1, (2,3)@1, (5,7)@2]`, whose adjacent entries `(2,4)@1`
and `(2,3)@1` are out of order and merge to `(2,4)@1 ≠ none`. -/
theorem phrase_produces_unsorted_mergeable_postings :
    (getOk (buildIndex [⟨1, str "a ab ab"⟩])).queryRec (Query.Phrase (str "a ab")) =
        [(1, c3Posting)] ∧
      (getOk (buildIndex [⟨1, str "a ab ab"⟩])).query (Query.Phrase (str "a ab")) =
        [⟨⟨1, str "a ab ab"⟩, c3Posting⟩] ∧
      ¬ List.Pairwise (· < ·) c3Posting ∧
      MergeOp.merge (⟨(2, 4), 1⟩ : Position) ⟨(2, 3), 1⟩ ≠ none :=
  ⟨rfl, rfl, by decide, by decide⟩

/-- C4: for ngram-indexed documents, `Phrase` evaluates each adjacent
query-token pair by the two-cursor positional walk; on the index over
`{1: "learn to program in rust today"}` the pairs `("learn","to")` and
`("to","program")` walk to `[(0,5)@0, (6,8)@1]` and `[(6,8)@1, (9,16)@2]`
over the stored postings lists, and `Phrase("learn to program")` yields
for document 1 exactly `[(0,5)@0, (6,8)@1, (9,16)@2]`. -/
theorem phrase_learn_to_program_positions :
    intersectPositionally [⟨(0, 5), 0⟩] [⟨(6, 8), 1⟩, ⟨(25, 27), 5⟩] =
        [⟨(0, 5), 0⟩, ⟨(6, 8), 1⟩] ∧
      intersectPositionally [⟨(6, 8), 1⟩, ⟨(25, 27), 5⟩] [⟨(9, 16), 2⟩] =
        [⟨(6, 8), 1⟩, ⟨(9, 16), 2⟩] ∧
      mlookup (str "learn")
          (getOk (buildIndex [⟨1, str "learn to program in rust today"⟩])).index =
        some [(1, [⟨(0, 5), 0⟩])] ∧
      mlookup (str "to")
          (getOk (buildIndex [⟨1, str "learn to program in rust today"⟩])).index =
        some [(1, [⟨(6, 8), 1⟩, ⟨(25, 27), 5⟩])] ∧
      mlookup (str "program")
          (getOk (buildIndex [⟨1, str "learn to program in rust today"⟩])).index =
        some [(1, [⟨(9, 16), 2⟩])] ∧
      (getOk (buildIndex [⟨1, str "learn to program in rust today"⟩])).query
          (Query.Phrase (str "learn to program")) =
        [⟨⟨1, str "learn to program in rust today"⟩,
          [⟨(0, 5), 0⟩, ⟨(6, 8), 1⟩, ⟨(9, 16), 2⟩]⟩] :=
  ⟨rfl, rfl, rfl, rfl, rfl, rfl⟩

/-- C9: `Phrase` with zero or one query-analyzer token evaluates to the
empty result set on every index state — the adjacent-pair window is empty,
so the intersected postings map and the result vector are both empty. -/
theorem phrase_short_query_empty (st : InvertedIndex) (p : Str)
    (h : (whitespaceTokens p).length ≤ 1) :
    st.queryRec (Query.Phrase p) = [] ∧ st.query (Query.Phrase p) = [] := by
  have hrec : st.queryRec (Query.Phrase p) = [] := by
    show st.phrase p = []
    unfold InvertedIndex.phrase
    cases hts : whitespaceTokens p with
    | nil => simp [intersectPostings]
    | cons t rest =>
      cases rest with
      | nil => simp [intersectPostings]
      | cons t2 r2 => simp [hts] at h
  refine ⟨hrec, ?_⟩
  show st.computeResults (st.queryRec (Query.Phrase p)) = []
  rw [hrec]
  rfl

/-- C9 witness: on the index over `{0: "beat"}`, the single-token phrase
`"beat"` — itself an indexed term — returns no results and no error. -/
theorem phrase_short_query_empty_witness :
    (whitespaceTokens (str "beat")).length ≤ 1 ∧
      (getOk (buildIndex [⟨0, str "beat"⟩])).query (Query.Phrase (str "beat")) = [] :=
  ⟨by decide, (phrase_short_query_empty (getOk (buildIndex [⟨0, str "beat"⟩]))
    (str "beat") (by decide)).2⟩

/-- C10: on every index state, `And` of no sub-queries evaluates to the
empty result vector (the `intersect_postings` of an empty slice is the
empty map, not the set of all documents), and so does `Or` of no
sub-queries. -/
theorem and_or_empty_subqueries (st : InvertedIndex) :
    st.query (Query.And []) = [] ∧ st.query (Query.Or []) = [] := by
  constructor
  · show st.computeResults (st.queryRec (Query.And [])) = []
    have : st.queryRec (Query.And []) = [] := rfl
    rw [this]
    rfl
  · show st.computeResults (st.queryRec (Query.Or [])) = []
    have : st.queryRec (Query.Or []) = [] := rfl
    rw [this]
    rfl

/-- C6: `Prefix(p)` evaluation: the empty prefix gives the empty postings
map; otherwise the result is the merge-coalesce union of the postings maps
of every indexed term `t` with `p ≤ t`, below the exclusive upper bound
`p[:-1] ++ [successor(last char)]` when the successor exists and unbounded
above otherwise; and the character successor is `c + 1` skipping the
surrogate range — `successor(0xD7FF) = 0xE000`, and `0x10FFFF` has none. -/
theorem prefix_scan_range_and_successor :
    (∀ (st : InvertedIndex) (p : Str),
      st.prefixScan p =
        if p = [] then []
        else
          mergeCollect
            (((st.index.filter (fun e =>
              decide (p ≤ e.1) &&
                match (p.getLast?.getD ' ').successor with
                | some c' => decide (e.1 < p.dropLast ++ [c'])
                | none => true)).map (fun e => e.2)).flatMap (fun m => m))) ∧
      Char.successor (Char.ofNat 0xD7FF) = some (Char.ofNat 0xE000) ∧
      Char.successor (Char.ofNat 0x10FFFF) = none ∧
      (∀ c : Char,
        Char.successor c =
          if c.toNat = 0xD7FF then some (Char.ofNat 0xE000)
          else if c.toNat = 0x10FFFF then none
          else some (Char.ofNat (c.toNat + 1))) := by
  refine ⟨?_, by decide, by decide, ?_⟩
  · intro st p
    by_cases hp : p = []
    · simp [InvertedIndex.prefixScan, hp]
    · rw [InvertedIndex.prefixScan, if_neg hp, if_neg hp]
      cases hsucc : (p.getLast?.getD ' ').successor with
      | none => simp [hsucc, inTermRange]
      | some c' => simp [hsucc, inTermRange]
  · intro c
    have hv : c.val.toNat < 0xD800 ∨ (0xDFFF < c.val.toNat ∧ c.val.toNat < 0x110000) :=
      c.valid
    have htn : c.toNat = c.val.toNat := rfl
    rw [← htn] at hv
    by_cases h1 : c.toNat = 0xD7FF
    · rw [Char.successor, if_pos h1, charFromU32, if_neg (by norm_num), if_pos h1]
    · by_cases h2 : c.toNat = 0x10FFFF
      · have hcond : (0xD800 ≤ c.toNat + 1 ∧ c.toNat + 1 ≤ 0xDFFF) ∨ 0x10FFFF < c.toNat + 1 := by
          omega
        rw [Char.successor, if_neg h1, charFromU32, if_pos hcond, if_neg h1, if_pos h2]
      · have hcond :
            ¬ ((0xD800 ≤ c.toNat + 1 ∧ c.toNat + 1 ≤ 0xDFFF) ∨ 0x10FFFF < c.toNat + 1) := by
          omega
        rw [Char.successor, if_neg h1, charFromU32, if_neg hcond, if_neg h1, if_neg h2]

theorem get?_set_self {T : Type} (l : List T) (i : Nat) (a : T) (h : i < l.length) :
    (l.set i a).get? i = some a := by
  induction l generalizing i with
  | nil => simp at h
  | cons x xs ih =>
    cases i with
    | zero => rfl
    | succ j => exact ih j (by simpa using h)

theorem get?_set_ne {T : Type} (l : List T) (i j : Nat) (a : T) (h : i ≠ j) :
    (l.set i a).get? j = l.get? j := by
  induction l generalizing i j with
  | nil => simp
  | cons x xs ih =>
    cases i with
    | zero =>
      cases j with
      | zero => exact absurd rfl h
      | succ j2 => rfl
    | succ i2 =>
      cases j with
      | zero => rfl
      | succ j2 => exact ih i2 j2 (fun hh => h (by rw [hh]))

theorem get?_eraseIdx_lt {T : Type} (l : List T) (i j : Nat) (h : j < i) :
    (l.eraseIdx i).get? j = l.get? j := by
  induction l generalizing i j with
  | nil => simp
  | cons x xs ih =>
    cases i with
    | zero => simp at h
    | succ i2 =>
      cases j with
      | zero => rfl
      | succ j2 => exact ih i2 j2 (by omega)

section SearchCoalesceClaim

variable {T : Type} [LinearOrder T] [DecidableEq T] [MergeOp T]

/-- No two adjacent elements merge: the "fully coalesced" invariant, as a
decidable predicate. -/
def noMergeableAdjacent : List T → Bool
  | [] => true
  | [_] => true
  | a :: b :: rest => (MergeOp.merge a b == none) && noMergeableAdjacent (b :: rest)

/-- `x` holds the data of `el` after `coalesce`: it is `el` itself, or a
merge result absorbing `el` from the left, from the right, or from both
sides in two steps. -/
def coalescedFrom (el x : T) : Prop :=
  x = el ∨ (∃ a, MergeOp.merge a el = some x) ∨ (∃ b, MergeOp.merge el b = some x) ∨
    (∃ a y b, MergeOp.merge a el = some y ∧ MergeOp.merge y b = some x)

/-- C7 (amended): on a sorted, coalesced vector `v`, a valid `start` and an
element ordered at or after position `start`, `search_coalesce` returns an
index `i` such that the element equal to `el` or coalesced from it sits at
index `i` of the updated vector, or at index `i - 1` when `el` was merged
into its left neighbour (in which case the returned `i` may even be one
past the end). -/
theorem searchCoalesce_result_location (v : List T) (start : Nat) (el : T)
    (hs : List.Pairwise (· < ·) v)
    (hc : noMergeableAdjacent v = true)
    (hstart : start ≤ v.length)
    (hel : ∀ x ∈ v.take start, x ≤ el) :
    (∃ x, (searchCoalesce v start el).2.get? (searchCoalesce v start el).1 = some x ∧
        coalescedFrom el x) ∨
      (0 < (searchCoalesce v start el).1 ∧
        ∃ x, (searchCoalesce v start el).2.get? ((searchCoalesce v start el).1 - 1) = some x ∧
          coalescedFrom el x) := by
  unfold searchCoalesce
  by_cases hfound : (v.drop start).get? (lowerCount (v.drop start) el) = some el
  · rw [if_pos hfound]
    left
    refine ⟨el, ?_, Or.inl rfl⟩
    rw [← List.get?_drop]
    exact hfound
  · rw [if_neg hfound]
    have hidx : lowerCount (v.drop start) el ≤ (v.drop start).length :=
      List.length_filter_le _ _
    have hi : start + lowerCount (v.drop start) el ≤ v.length := by
      have := List.length_drop start v
      omega
    generalize hI : start + lowerCount (v.drop start) el = i at *
    dsimp only
    by_cases hv : v = []
    · subst hv
      have : i = 0 := by simpa using hi
      subst this
      rw [coalesce, if_pos rfl]
      exact Or.inl ⟨el, rfl, Or.inl rfl⟩
    · rw [coalesce, if_neg hv]
      have hvlen : 0 < v.length := List.length_pos.2 hv
      by_cases hz : i = 0
      · subst hz
        rw [if_pos rfl]
        cases hm : MergeOp.merge el (v.getD 0 el) with
        | some c =>
          left
          exact ⟨c, get?_set_self v 0 c hvlen, Or.inr (Or.inr (Or.inl ⟨v.getD 0 el, hm⟩))⟩
        | none =>
          left
          refine ⟨el, ?_, Or.inl rfl⟩
          simp [insertAt]
      · rw [if_neg hz]
        by_cases hl : i = v.length
        · rw [if_pos hl]
          cases hm : MergeOp.merge (v.getD (i - 1) el) el with
          | some c =>
            right
            refine ⟨Nat.pos_of_ne_zero hz, c, ?_,
              Or.inr (Or.inl ⟨v.getD (i - 1) el, hm⟩)⟩
            exact get?_set_self v (i - 1) c (by omega)
          | none =>
            left
            exact ⟨el, insertAt_get?_self v i el hi, Or.inl rfl⟩
        · rw [if_neg hl]
          have hilt : i < v.length := lt_of_le_of_ne hi hl
          cases hm1 : MergeOp.merge (v.getD (i - 1) el) el with
          | some c =>
            dsimp only
            cases hm2 : MergeOp.merge c ((v.set (i - 1) c).getD i el) with
            | some c₂ =>
              right
              refine ⟨Nat.pos_of_ne_zero hz, c₂, ?_,
                Or.inr (Or.inr (Or.inr ⟨v.getD (i - 1) el, c, (v.set (i - 1) c).getD i el,
                  hm1, hm2⟩))⟩
              rw [get?_eraseIdx_lt _ _ _ (by omega), List.set_set]
              exact get?_set_self v (i - 1) c₂ (by omega)
            | none =>
              right
              refine ⟨Nat.pos_of_ne_zero hz, c, ?_, Or.inr (Or.inl ⟨v.getD (i - 1) el, hm1⟩)⟩
              exact get?_set_self v (i - 1) c (by omega)
          | none =>
            cases hm2 : MergeOp.merge el (v.getD i el) with
            | some c =>
              left
              exact ⟨c, get?_set_self v i c hilt, Or.inr (Or.inr (Or.inl ⟨v.getD i el, hm2⟩))⟩
            | none =>
              left
              exact ⟨el, insertAt_get?_self v i el hi, Or.inl rfl⟩

end SearchCoalesceClaim

/-- The vector and element of the C7 counterexample (the crate's own
`test_search_coalesce_2` data, tagged with token position 0). -/
def c7vec : List Position := [⟨(0, 1), 0⟩, ⟨(2, 3), 0⟩, ⟨(4, 5), 0⟩, ⟨(6, 7), 0⟩]

/-- The element inserted in the C7 counterexample. -/
def c7el : Position := ⟨(5, 6), 0⟩

/-- C7 counterexample to the claim as stated: on the sorted, coalesced
vector `[(0,1), (2,3), (4,5), (6,7)]` with `start = 1` and `el = (5,6)`,
`search_coalesce` merges twice, shrinking the vector to
`[(0,1), (2,3), (4,7)]`, yet returns index 3 — one past the end, so no
element `v[i]` equal to or coalescing the inserted element exists. -/
theorem searchCoalesce_claim_counterexample :
    List.Pairwise (· < ·) c7vec ∧
      noMergeableAdjacent c7vec = true ∧
      (1 : Nat) ≤ c7vec.length ∧
      (∀ x ∈ c7vec.take 1, x ≤ c7el) ∧
      searchCoalesce c7vec 1 c7el = (3, [⟨(0, 1), 0⟩, ⟨(2, 3), 0⟩, ⟨(4, 7), 0⟩]) ∧
      ¬ ∃ x, (searchCoalesce c7vec 1 c7el).2.get? (searchCoalesce c7vec 1 c7el).1 = some x ∧
          coalescedFrom c7el x := by
  refine ⟨by decide, by decide, by decide, by decide, by decide, ?_⟩
  rintro ⟨x, hx, -⟩
  rw [show (searchCoalesce c7vec 1 c7el).2.get? (searchCoalesce c7vec 1 c7el).1 = none
    from rfl] at hx
  exact Option.noConfusion hx

/-- The vector and element of the C7 witness. -/
def c7wvec : List Position := [⟨(0, 1), 0⟩, ⟨(4, 5), 0⟩]

/-- The element inserted in the C7 witness. -/
def c7wel : Position := ⟨(2, 3), 0⟩

/-- C7 witness: inserting `(2,3)` into `[(0,1), (4,5)]` from `start = 0`
inserts without merging and returns index 1, where the element itself
sits. -/
theorem searchCoalesce_result_location_witness :
    (∃ x, (searchCoalesce c7wvec 0 c7wel).2.get? (searchCoalesce c7wvec 0 c7wel).1 = some x ∧
        coalescedFrom c7wel x) ∨
      (0 < (searchCoalesce c7wvec 0 c7wel).1 ∧
        ∃ x, (searchCoalesce c7wvec 0 c7wel).2.get? ((searchCoalesce c7wvec 0 c7wel).1 - 1) =
          some x ∧ coalescedFrom c7wel x) :=
  searchCoalesce_result_location c7wvec 0 c7wel (by decide) (by decide) (by decide) (by decide)

section IntersectionClaim

variable {K : Type} [LinearOrder K]

theorem findGe_none_lt (m : K) (l : List K) (h : findGe m l = none) : ∀ x ∈ l, x < m := by
  induction l with
  | nil => simp
  | cons x xs ih =>
    by_cases hx : m ≤ x
    · rw [findGe, if_pos hx] at h
      exact Option.noConfusion h
    · rw [findGe, if_neg hx] at h
      intro y hy
      rcases List.mem_cons.1 hy with rfl | hy
      · exact not_le.1 hx
      · exact ih h y hy

theorem findGe_decomp (m : K) (l : List K) (v : K) (r : List K)
    (h : findGe m l = some (v, r)) :
    ∃ pre, l = pre ++ v :: r ∧ (∀ x ∈ pre, x < m) ∧ m ≤ v := by
  induction l generalizing v r with
  | nil => exact Option.noConfusion h
  | cons x xs ih =>
    by_cases hx : m ≤ x
    · rw [findGe, if_pos hx] at h
      have h2 := Option.some.inj h
      obtain ⟨rfl, rfl⟩ : x = v ∧ xs = r :=
        ⟨congrArg Prod.fst h2, congrArg Prod.snd h2⟩
      exact ⟨[], by simp, by simp, hx⟩
    · rw [findGe, if_neg hx] at h
      obtain ⟨pre, hpre, hlt, hle⟩ := ih _ _ h
      refine ⟨x :: pre, by simp [hpre], ?_, hle⟩
      intro y hy
      rcases List.mem_cons.1 hy with rfl | hy
      · exact not_le.1 hx
      · exact hlt y hy

theorem getD_mem {α : Type} (l : List α) (j : Nat) (d : α) (h : j < l.length) :
    l.getD j d ∈ l := by
  induction l generalizing j with
  | nil => simp at h
  | cons x xs ih =>
    cases j with
    | zero => exact List.mem_cons_self x xs
    | succ j2 => exact List.mem_cons_of_mem x (ih j2 (by simpa using h))

theorem forall_mem_iff_getD {α : Type} (l : List α) (d : α) (P : α → Prop) :
    (∀ x ∈ l, P x) ↔ ∀ j, j < l.length → P (l.getD j d) := by
  constructor
  · intro h j hj
    exact h _ (getD_mem l j d hj)
  · intro h x hx
    obtain ⟨j, hj, rfl⟩ : ∃ j, ∃ hj : j < l.length, l.get ⟨j, hj⟩ = x := by
      obtain ⟨⟨j, hj⟩, hget⟩ := List.mem_iff_get.1 hx
      exact ⟨j, hj, hget⟩
    have : l.getD j d = l.get ⟨j, hj⟩ := by
      rw [List.getD_eq_getElem?_getD]
      simp [List.getElem?_eq_getElem hj]
    rw [← this]
    exact h j hj

theorem getD_set_self {α : Type} (l : List α) (i : Nat) (x d : α) (h : i < l.length) :
    (l.set i x).getD i d = x := by
  induction l generalizing i with
  | nil => simp at h
  | cons y ys ih =>
    cases i with
    | zero => rfl
    | succ j => exact ih j (by simpa using h)

theorem getD_set_ne {α : Type} (l : List α) (i j : Nat) (x d : α) (h : i ≠ j) :
    (l.set i x).getD j d = l.getD j d := by
  induction l generalizing i j with
  | nil => simp
  | cons y ys ih =>
    cases i with
    | zero =>
      cases j with
      | zero => exact absurd rfl h
      | succ j2 => rfl
    | succ i2 =>
      cases j with
      | zero => rfl
      | succ j2 => exact ih i2 j2 (fun hh => h (by rw [hh]))

/-- Mid-loop invariant of the retry scan, relative to the iterator
contents `origs` at the start of the `next` call: each original list
splits into a consumed prefix and the current remainder; consumed
elements are at most the candidate `mx`, the candidate has been seen in
every iterator already scanned this pass (and in its origin `skip`), and
iterators not yet scanned this pass have consumed only keys strictly
below the candidate. -/
structure ScanInv (origs iters : List (List K)) (mx : K) (skip i : Nat) : Prop where
  len : iters.length = origs.length
  decomp : ∀ j, j < origs.length →
    ∃ pre, origs.getD j [] = pre ++ iters.getD j [] ∧
      (∀ x ∈ pre, x ≤ mx) ∧
      ((j = skip ∨ j < i) → mx ∈ pre) ∧
      ((j ≠ skip ∧ i ≤ j) → ∀ x ∈ pre, x < mx)
  lower : ∀ k, (∀ l ∈ origs, k ∈ l) → mx ≤ k

/-- What a successful scan guarantees: the emitted key is the least key
common to all the original lists, and every remaining iterator element is
strictly beyond it. -/
structure ScanGood (origs : List (List K)) (res : K) (out : List (List K)) : Prop where
  len : out.length = origs.length
  mem : ∀ l ∈ origs, res ∈ l
  lower : ∀ k, (∀ l ∈ origs, k ∈ l) → res ≤ k
  decomp : ∀ j, j < origs.length →
    ∃ pre, origs.getD j [] = pre ++ out.getD j [] ∧ ∀ x ∈ pre, x ≤ res
  gt : ∀ j, j < origs.length → ∀ x ∈ out.getD j [], res < x

end IntersectionClaim

theorem scanFromF_spec {K : Type} [LinearOrder K] (origs : List (List K))
    (hs : ∀ l ∈ origs, l.Pairwise (· < ·)) :
    ∀ (fuel : Nat) (iters : List (List K)) (mx : K) (skip i : Nat),
      ScanInv origs iters mx skip i →
      totalSize iters * (origs.length + 1) + (origs.length - i) < fuel →
      (scanFromF fuel iters mx skip i = none → ∀ k, ¬ (∀ l ∈ origs, k ∈ l)) ∧
      (∀ res out, scanFromF fuel iters mx skip i = some (res, out) →
        ScanGood origs res out) := by
  intro fuel
  induction fuel with
  | zero =>
    intro iters mx skip i _ hfuel
    exact absurd hfuel (by omega)
  | succ fuel ih =>
    intro iters mx skip i hinv hfuel
    have hlen := hinv.len
    rw [scanFromF]
    by_cases hlt : i < iters.length
    · rw [if_pos hlt]
      by_cases hsk : i = skip
      · rw [if_pos hsk]
        refine ih iters mx skip (i + 1) ⟨hlen, ?_, hinv.lower⟩ (by omega)
        intro j hj
        obtain ⟨pre, heq, hle, hmem, hstrict⟩ := hinv.decomp j hj
        refine ⟨pre, heq, hle, ?_, ?_⟩
        · rintro (rfl | hji)
          · exact hmem (Or.inl rfl)
          · by_cases hji2 : j < i
            · exact hmem (Or.inr hji2)
            · have : j = i := by omega
              subst this
              exact hmem (Or.inl hsk)
        · rintro ⟨hjs, hij⟩
          exact hstrict ⟨hjs, by omega⟩
      · rw [if_neg hsk]
        cases hf : findGe mx (iters.getD i []) with
        | none =>
          dsimp only
          constructor
          · intro _ k hk
            have hmx := hinv.lower k hk
            obtain ⟨pre, heq, hle, hmem, hstrict⟩ := hinv.decomp i (by omega)
            have hkin : k ∈ origs.getD i [] := hk _ (getD_mem _ _ _ (by omega))
            rw [heq] at hkin
            rcases List.mem_append.1 hkin with hkpre | hkcur
            · exact absurd hmx (not_le.2 (hstrict ⟨hsk, le_refl i⟩ k hkpre))
            · exact absurd hmx (not_le.2 (findGe_none_lt mx _ hf k hkcur))
          · intro res out h
            exact Option.noConfusion h
        | some vr =>
          obtain ⟨val, rest⟩ := vr
          dsimp only
          obtain ⟨dropped, hdec, hdlt, hge⟩ := findGe_decomp mx _ _ _ hf
          have hset_len : (iters.set i rest).length = iters.length := List.length_set _ _ _
          have hts : totalSize (iters.set i rest) + (iters.getD i []).length =
              totalSize iters + rest.length := totalSize_set _ _ _ hlt
          have hdlen : (iters.getD i []).length = dropped.length + 1 + rest.length := by
            rw [hdec]
            simp
            omega
          by_cases hv : mx < val
          · rw [if_pos hv]
            refine ih (iters.set i rest) val i 0 ⟨by rw [hset_len, hlen], ?_, ?_⟩ ?_
            · intro j hj
              by_cases hji : j = i
              · subst hji
                obtain ⟨pre, heq, hle, hmem, hstrict⟩ := hinv.decomp j hj
                refine ⟨pre ++ dropped ++ [val], ?_, ?_, ?_, ?_⟩
                · rw [getD_set_self _ _ _ _ hlt, heq, hdec]
                  simp
                · intro x hx
                  simp only [List.append_assoc, List.mem_append, List.mem_singleton] at hx
                  rcases hx with hx | hx | rfl
                  · exact le_of_lt (lt_of_lt_of_le (hstrict ⟨hsk, le_refl j⟩ x hx)
                      (le_of_lt hv))
                  · exact le_of_lt (lt_of_lt_of_le (hdlt x hx) (le_of_lt hv))
                  · exact le_refl x
                · intro _
                  simp
                · rintro ⟨hne, _⟩
                  exact absurd rfl hne
              · obtain ⟨pre, heq, hle, hmem, hstrict⟩ := hinv.decomp j hj
                refine ⟨pre, ?_, ?_, ?_, ?_⟩
                · rw [getD_set_ne _ _ _ _ _ (fun hh => hji hh.symm)]
                  exact heq
                · intro x hx
                  exact le_of_lt (lt_of_le_of_lt (hle x hx) hv)
                · rintro (hj' | hj0)
                  · exact absurd hj' hji
                  · exact absurd hj0 (Nat.not_lt_zero j)
                · rintro ⟨hne, _⟩
                  intro x hx
                  by_cases hcase : j = skip ∨ j < i
                  · exact lt_of_le_of_lt (hle x hx) hv
                  · push_neg at hcase
                    exact lt_trans (hstrict ⟨hcase.1, by omega⟩ x hx) hv
            · intro k hk
              have hmx := hinv.lower k hk
              have hkin : k ∈ origs.getD i [] := hk _ (getD_mem _ _ _ (by omega))
              obtain ⟨pre, heq, hle, hmem, hstrict⟩ := hinv.decomp i (by omega)
              have hsort : (origs.getD i []).Pairwise (· < ·) :=
                hs _ (getD_mem _ _ _ (by omega))
              rw [heq, hdec] at hkin hsort
              rcases List.mem_append.1 hkin with hkpre | hkrest
              · exact absurd hmx (not_le.2 (hstrict ⟨hsk, le_refl i⟩ k hkpre))
              · rcases List.mem_append.1 hkrest with hkdrop | hkvr
                · exact absurd hmx (not_le.2 (hdlt k hkdrop))
                · rcases List.mem_cons.1 hkvr with rfl | hkr
                  · exact le_refl k
                  · have hvr : (val :: rest).Pairwise (· < ·) :=
                      (List.pairwise_append.1 ((List.pairwise_append.1 hsort).2.1)).2.1
                    exact le_of_lt ((List.pairwise_cons.1 hvr).1 k hkr)
            · have hmul : (totalSize (iters.set i rest) + 1) * (origs.length + 1) ≤
                  totalSize iters * (origs.length + 1) := by
                apply Nat.mul_le_mul_right
                omega
              rw [add_mul, one_mul] at hmul
              omega
          · rw [if_neg hv]
            have hveq : val = mx := le_antisymm (not_lt.1 hv) hge
            subst hveq
            refine ih (iters.set i rest) val skip (i + 1)
              ⟨by rw [hset_len, hlen], ?_, hinv.lower⟩ ?_
            · intro j hj
              by_cases hji : j = i
              · subst hji
                obtain ⟨pre, heq, hle, hmem, hstrict⟩ := hinv.decomp j hj
                refine ⟨pre ++ dropped ++ [val], ?_, ?_, ?_, ?_⟩
                · rw [getD_set_self _ _ _ _ hlt, heq, hdec]
                  simp
                · intro x hx
                  simp only [List.append_assoc, List.mem_append, List.mem_singleton] at hx
                  rcases hx with hx | hx | rfl
                  · exact le_of_lt (hstrict ⟨hsk, le_refl j⟩ x hx)
                  · exact le_of_lt (hdlt x hx)
                  · exact le_refl x
                · intro _
                  simp
                · rintro ⟨_, hii⟩
                  exact absurd hii (by omega)
              · obtain ⟨pre, heq, hle, hmem, hstrict⟩ := hinv.decomp j hj
                refine ⟨pre, ?_, hle, ?_, ?_⟩
                · rw [getD_set_ne _ _ _ _ _ (fun hh => hji hh.symm)]
                  exact heq
                · rintro (hjs | hji1)
                  · exact hmem (Or.inl hjs)
                  · exact hmem (Or.inr (by omega))
                · rintro ⟨hjs, hij⟩
                  exact hstrict ⟨hjs, by omega⟩
            · have hmul : (totalSize (iters.set i rest) + 1) * (origs.length + 1) ≤
                  totalSize iters * (origs.length + 1) := by
                apply Nat.mul_le_mul_right
                omega
              rw [add_mul, one_mul] at hmul
              omega
    · rw [if_neg hlt]
      constructor
      · intro h
        exact Option.noConfusion h
      · intro res out h
        have h2 := Option.some.inj h
        obtain ⟨rfl, rfl⟩ : mx = res ∧ iters = out :=
          ⟨congrArg Prod.fst h2, congrArg Prod.snd h2⟩
        refine ⟨hlen, ?_, hinv.lower, ?_, ?_⟩
        · rw [forall_mem_iff_getD origs ([] : List K)]
          intro j hj
          obtain ⟨pre, heq, hle, hmem, _⟩ := hinv.decomp j hj
          rw [heq]
          exact List.mem_append_left _ (hmem (Or.inr (by omega)))
        · intro j hj
          obtain ⟨pre, heq, hle, _, _⟩ := hinv.decomp j hj
          exact ⟨pre, heq, hle⟩
        · intro j hj x hx
          obtain ⟨pre, heq, hle, hmem, _⟩ := hinv.decomp j hj
          have hsort := hs _ (getD_mem origs j [] hj)
          rw [heq] at hsort
          exact (List.pairwise_append.1 hsort).2.2 _ (hmem (Or.inr (by omega))) x hx

theorem interNext_spec {K : Type} [LinearOrder K] (iters : List (List K))
    (hne : iters ≠ [])
    (hs : ∀ l ∈ iters, l.Pairwise (· < ·)) :
    (interNext iters = none → ∀ k, ¬ (∀ l ∈ iters, k ∈ l)) ∧
    (∀ res out, interNext iters = some (res, out) → ScanGood iters res out) := by
  match iters with
  | [] => exact absurd rfl hne
  | [] :: rest =>
    constructor
    · intro _ k hk
      exact absurd (hk [] (List.mem_cons_self _ _)) (List.not_mem_nil k)
    · intro res out h
      exact Option.noConfusion h
  | (m :: tl) :: rest =>
    have hminv : ScanInv ((m :: tl) :: rest) (tl :: rest) m 0 0 := by
      refine ⟨by simp, ?_, ?_⟩
      · intro j hj
        cases j with
        | zero =>
          refine ⟨[m], rfl, ?_, fun _ => List.mem_singleton_self m, ?_⟩
          · intro x hx
            rw [List.mem_singleton.1 hx]
          · rintro ⟨hne0, _⟩
            exact absurd rfl hne0
        | succ j' =>
          refine ⟨[], rfl, by simp, ?_, by simp⟩
          rintro (hj0 | hj0) <;> exact absurd hj0 (by omega)
      · intro k hk
        have hk0 := hk (m :: tl) (List.mem_cons_self _ _)
        have hsort := hs (m :: tl) (List.mem_cons_self _ _)
        rcases List.mem_cons.1 hk0 with rfl | hktl
        · exact le_refl k
        · exact le_of_lt ((List.pairwise_cons.1 hsort).1 k hktl)
    have hfuel : totalSize (tl :: rest) * (((m :: tl) :: rest).length + 1) +
        (((m :: tl) :: rest).length - 0) < scanMeasure (tl :: rest) 0 + 1 := by
      have : ((m :: tl) :: rest).length = (tl :: rest).length := by simp
      rw [this, scanMeasure]
      omega
    have := scanFromF_spec ((m :: tl) :: rest) hs (scanMeasure (tl :: rest) 0 + 1)
      (tl :: rest) m 0 0 hminv hfuel
    exact this

theorem interToListF_spec {K : Type} [LinearOrder K] :
    ∀ (fuel : Nat) (iters : List (List K)),
      totalSize iters < fuel → iters ≠ [] → (∀ l ∈ iters, l.Pairwise (· < ·)) →
      (interToListF fuel iters).Pairwise (· < ·) ∧
      (∀ k, k ∈ interToListF fuel iters ↔ ∀ l ∈ iters, k ∈ l) := by
  intro fuel
  induction fuel with
  | zero =>
    intro iters hfuel
    exact absurd hfuel (by omega)
  | succ fuel ih =>
    intro iters hfuel hne hs
    rw [interToListF]
    cases hnext : interNext iters with
    | none =>
      constructor
      · exact List.Pairwise.nil
      · intro k
        simp only [List.not_mem_nil, false_iff]
        intro hall
        exact (interNext_spec iters hne hs).1 hnext k hall
    | some ro =>
      obtain ⟨res, out⟩ := ro
      dsimp only
      have hgood := (interNext_spec iters hne hs).2 res out hnext
      have hsize := interNext_size iters res out hnext
      have houtne : out ≠ [] := by
        intro h0
        have hl := hgood.len
        rw [h0] at hl
        simp only [List.length_nil] at hl
        exact hne (List.length_eq_zero.1 hl.symm)
      have houts : ∀ l ∈ out, l.Pairwise (· < ·) := by
        rw [forall_mem_iff_getD out ([] : List K)]
        intro j hj
        have hj' : j < iters.length := by
          rw [← hgood.len]
          exact hj
        obtain ⟨pre, heq, _⟩ := hgood.decomp j hj'
        have hsort := hs _ (getD_mem iters j [] hj')
        rw [heq] at hsort
        exact (List.pairwise_append.1 hsort).2.1
      obtain ⟨ihs, ihm⟩ := ih out (by omega) houtne houts
      have hlift : ∀ k, (∀ l ∈ out, k ∈ l) → ∀ l ∈ iters, k ∈ l := by
        intro k hko
        rw [forall_mem_iff_getD iters ([] : List K)]
        intro j hj
        obtain ⟨pre, heq, _⟩ := hgood.decomp j hj
        rw [heq]
        refine List.mem_append_right _ (hko _ (getD_mem out j [] ?_))
        rw [hgood.len]
        exact hj
      constructor
      · rw [List.pairwise_cons]
        refine ⟨?_, ihs⟩
        intro x hx
        have hxall := (ihm x).1 hx
        have h0lt : 0 < iters.length := List.length_pos.2 hne
        have hx0 : x ∈ out.getD 0 [] := by
          refine hxall _ (getD_mem out 0 [] ?_)
          rw [hgood.len]
          exact h0lt
        exact hgood.gt 0 h0lt x hx0
      · intro k
        simp only [List.mem_cons]
        constructor
        · rintro (rfl | hk)
          · exact hgood.mem
          · exact hlift k ((ihm k).1 hk)
        · intro hk
          have hres := hgood.lower k hk
          by_cases hkr : k = res
          · exact Or.inl hkr
          · right
            apply (ihm k).2
            rw [forall_mem_iff_getD out ([] : List K)]
            intro j hj
            have hj' : j < iters.length := by
              rw [← hgood.len]
              exact hj
            have hkj : k ∈ iters.getD j [] := hk _ (getD_mem iters j [] hj')
            obtain ⟨pre, heq, hle⟩ := hgood.decomp j hj'
            rw [heq] at hkj
            rcases List.mem_append.1 hkj with hkp | hko
            · exact absurd (le_antisymm (hle k hkp) hres) hkr
            · exact hko

/-- C5 (amended): for every nonempty collection of strictly increasing key
sequences, the `Intersection` iterator yields exactly the keys present in
all of them, in strictly ascending order. -/
theorem intersection_yields_common_keys {K : Type} [LinearOrder K]
    (iters : List (List K)) (hne : iters ≠ [])
    (hs : ∀ l ∈ iters, l.Pairwise (· < ·)) :
    (interToList iters).Pairwise (· < ·) ∧
      (∀ k, k ∈ interToList iters ↔ ∀ l ∈ iters, k ∈ l) :=
  interToListF_spec (totalSize iters + 1) iters (by omega) hne hs

/-- C5 counterexample to the claim as stated: on the empty collection
(`N = 0`) the iterator yields nothing, while every key vacuously belongs
to all zero sequences, so the output is not the set-theoretic intersection
of the inputs. -/
theorem intersection_empty_family_counterexample :
    interToList ([] : List (List Nat)) = [] ∧
      ¬ (∀ k : Nat, k ∈ interToList ([] : List (List Nat)) ↔
          ∀ l ∈ ([] : List (List Nat)), k ∈ l) := by
  refine ⟨rfl, ?_⟩
  intro h
  have h0 := (h 0).2 (by intro l hl; exact absurd hl (List.not_mem_nil l))
  rw [show interToList ([] : List (List Nat)) = [] from rfl] at h0
  exact absurd h0 (List.not_mem_nil 0)

/-- C5 witness: the intersection of `[1,2,3,4]`, `[2,3,4]` and `[1,2,3]`
is computed (it equals `[2,3]`), sorted and characterised by membership in
all three lists. -/
theorem intersection_yields_common_keys_witness :
    interToList [[1, 2, 3, 4], [2, 3, 4], [1, 2, 3]] = ([2, 3] : List Nat) ∧
      (interToList [[1, 2, 3, 4], [2, 3, 4], [1, 2, 3]] : List Nat).Pairwise (· < ·) ∧
      (∀ k, k ∈ (interToList [[1, 2, 3, 4], [2, 3, 4], [1, 2, 3]] : List Nat) ↔
        ∀ l ∈ [[1, 2, 3, 4], [2, 3, 4], [1, 2, 3]], k ∈ l) :=
  ⟨rfl,
    intersection_yields_common_keys [[1, 2, 3, 4], [2, 3, 4], [1, 2, 3]]
      (by decide) (by decide)⟩

section SortedMapMore

variable {K : Type} {V : Type} [LinearOrder K] [DecidableEq K]

theorem mlookup_mem (k : K) (m : List (K × V)) (v : V) (h : mlookup k m = some v) :
    (k, v) ∈ m := by
  induction m with
  | nil => exact Option.noConfusion h
  | cons e rest ih =>
    obtain ⟨k', v'⟩ := e
    by_cases hk : k = k'
    · rw [mlookup, if_pos hk] at h
      subst hk
      rw [Option.some.inj h]
      exact List.mem_cons_self _ _
    · rw [mlookup, if_neg hk] at h
      exact List.mem_cons_of_mem _ (ih h)

theorem mlookup_ne_nil (k : K) (m : List (K × V)) (v : V) (h : mlookup k m = some v) :
    m ≠ [] := by
  intro h0
  rw [h0] at h
  exact Option.noConfusion h

theorem minsert_minsert_same (k : K) (v w : V) (m : List (K × V)) :
    minsert k v (minsert k w m) = minsert k v m := by
  induction m with
  | nil => simp [minsert]
  | cons e rest ih =>
    obtain ⟨k', v'⟩ := e
    by_cases h1 : k < k'
    · rw [minsert, if_pos h1, minsert, if_neg (lt_irrefl k), if_pos rfl, minsert, if_pos h1]
    · by_cases h2 : k = k'
      · rw [minsert, if_neg h1, if_pos h2, minsert, if_neg (lt_irrefl k), if_pos rfl,
          minsert, if_neg h1, if_pos h2]
      · rw [minsert, if_neg h1, if_neg h2, minsert, if_neg h1, if_neg h2, ih,
          minsert, if_neg h1, if_neg h2]

theorem mlookup_mupsert (k j : K) (d : V) (f : V → V) (m : List (K × V)) :
    mlookup j (mupsert k d f m) =
      if j = k then some (f ((mlookup k m).getD d)) else mlookup j m := by
  rw [mupsert, mlookup_minsert]

theorem mem_of_mem_merase (k : K) (m : List (K × V)) (e : K × V) (h : e ∈ merase k m) :
    e ∈ m := by
  induction m with
  | nil => exact absurd h (List.not_mem_nil e)
  | cons e' rest ih =>
    obtain ⟨k', v'⟩ := e'
    by_cases h1 : k = k'
    · rw [merase, if_pos h1] at h
      exact List.mem_cons_of_mem _ h
    · rw [merase, if_neg h1] at h
      rcases List.mem_cons.1 h with rfl | h2
      · exact List.mem_cons_self _ _
      · exact List.mem_cons_of_mem _ (ih h2)

theorem msorted_merase (k : K) (m : List (K × V)) (h : msorted m) :
    msorted (merase k m) := by
  induction m with
  | nil => simp [merase, msorted]
  | cons e rest ih =>
    obtain ⟨k', v'⟩ := e
    rw [msorted, List.map_cons, List.pairwise_cons] at h
    by_cases h1 : k = k'
    · rw [merase, if_pos h1]
      exact h.2
    · rw [merase, if_neg h1]
      rw [msorted, List.map_cons, List.pairwise_cons]
      refine ⟨?_, ih h.2⟩
      intro b hb
      obtain ⟨e2, he2, rfl⟩ := List.mem_map.1 hb
      exact h.1 e2.1 (List.mem_map.2 ⟨e2, mem_of_mem_merase k rest e2 he2, rfl⟩)

theorem mem_of_mem_minsert (k : K) (v : V) (m : List (K × V)) (e : K × V)
    (h : e ∈ minsert k v m) : e = (k, v) ∨ e ∈ m := by
  induction m with
  | nil =>
    rw [minsert] at h
    rcases List.mem_cons.1 h with rfl | h2
    · exact Or.inl rfl
    · exact absurd h2 (List.not_mem_nil e)
  | cons e' rest ih =>
    obtain ⟨k', v'⟩ := e'
    by_cases h1 : k < k'
    · rw [minsert, if_pos h1] at h
      rcases List.mem_cons.1 h with rfl | h2
      · exact Or.inl rfl
      · exact Or.inr h2
    · by_cases h2 : k = k'
      · rw [minsert, if_neg h1, if_pos h2] at h
        rcases List.mem_cons.1 h with rfl | h3
        · exact Or.inl rfl
        · exact Or.inr (List.mem_cons_of_mem _ h3)
      · rw [minsert, if_neg h1, if_neg h2] at h
        rcases List.mem_cons.1 h with rfl | h3
        · exact Or.inr (List.mem_cons_self _ _)
        · rcases ih h3 with h4 | h4
          · exact Or.inl h4
          · exact Or.inr (List.mem_cons_of_mem _ h4)

theorem merase_of_not_mem (k : K) (m : List (K × V)) (h : k ∉ m.map Prod.fst) :
    merase k m = m := by
  induction m with
  | nil => rfl
  | cons e rest ih =>
    obtain ⟨k', v'⟩ := e
    simp only [List.map_cons, List.mem_cons, not_or] at h
    rw [merase, if_neg h.1, ih h.2]

theorem not_mem_keys_merase (k : K) (m : List (K × V)) (hnd : (m.map Prod.fst).Nodup) :
    k ∉ (merase k m).map Prod.fst := by
  induction m with
  | nil => simp [merase]
  | cons e rest ih =>
    obtain ⟨k', v'⟩ := e
    simp only [List.map_cons, List.nodup_cons] at hnd
    by_cases h1 : k = k'
    · rw [merase, if_pos h1]
      subst h1
      exact hnd.1
    · rw [merase, if_neg h1]
      simp only [List.map_cons, List.mem_cons, not_or]
      exact ⟨h1, ih hnd.2⟩

/-- Extensionality for key-sorted association lists: equal lookups imply
equal maps. -/
theorem mext (m1 m2 : List (K × V)) (h1 : msorted m1) (h2 : msorted m2)
    (h : ∀ k, mlookup k m1 = mlookup k m2) : m1 = m2 := by
  induction m1 generalizing m2 with
  | nil =>
    cases m2 with
    | nil => rfl
    | cons e r =>
      obtain ⟨k2, v2⟩ := e
      have hx := h k2
      rw [mlookup, mlookup, if_pos rfl] at hx
      exact Option.noConfusion hx
  | cons e r1 ih =>
    obtain ⟨k1, v1⟩ := e
    cases m2 with
    | nil =>
      have hx := h k1
      rw [mlookup, mlookup, if_pos rfl] at hx
      exact Option.noConfusion hx
    | cons e2 r2 =>
      obtain ⟨k2, v2⟩ := e2
      rw [msorted, List.map_cons, List.pairwise_cons] at h1 h2
      rcases lt_trichotomy k1 k2 with hlt | heq | hgt
      · exfalso
        have hk1 := h k1
        rw [mlookup, if_pos rfl, mlookup, if_neg (ne_of_lt hlt)] at hk1
        rw [mlookup_eq_none_of_forall_lt k1 r2
          (fun k hk => lt_trans hlt (h2.1 k hk))] at hk1
        exact Option.noConfusion hk1
      · subst heq
        have hv := h k1
        rw [mlookup, if_pos rfl, mlookup, if_pos rfl] at hv
        have hveq := Option.some.inj hv
        subst hveq
        have htails : r1 = r2 := by
          apply ih r2 h1.2 h2.2
          intro k
          by_cases hk : k = k1
          · subst hk
            rw [mlookup_eq_none_of_forall_lt k r1 h1.1,
              mlookup_eq_none_of_forall_lt k r2 h2.1]
          · have hx := h k
            rw [mlookup, if_neg hk, mlookup, if_neg hk] at hx
            exact hx
        rw [htails]
      · exfalso
        have hk2 := h k2
        rw [mlookup, if_neg (ne_of_lt hgt), mlookup, if_pos rfl] at hk2
        rw [mlookup_eq_none_of_forall_lt k2 r1
          (fun k hk => lt_trans hgt (h1.1 k hk))] at hk2
        exact Option.noConfusion hk2

end SortedMapMore

/-! ## The canonical index and re-indexing (`InvertedIndex::index`) -/

section MapHelpers

variable {K : Type} {V : Type} [LinearOrder K] [DecidableEq K]

theorem mlookup_of_mem_sorted (m : List (K × V)) (e : K × V) (hm : msorted m)
    (he : e ∈ m) : mlookup e.1 m = some e.2 := by
  induction m with
  | nil => exact absurd he (List.not_mem_nil e)
  | cons e' rest ih =>
    obtain ⟨k', v'⟩ := e'
    rw [msorted, List.map_cons, List.pairwise_cons] at hm
    rcases List.mem_cons.1 he with h2 | h2
    · subst h2
      rw [mlookup, if_pos rfl]
    · have hne : e.1 ≠ k' := ne_of_gt (hm.1 e.1 (List.mem_map.2 ⟨e, h2, rfl⟩))
      rw [mlookup, if_neg hne]
      exact ih hm.2 h2

theorem minsert_ne_nil (k : K) (v : V) (m : List (K × V)) : minsert k v m ≠ [] := by
  cases m with
  | nil => simp [minsert]
  | cons e rest =>
    obtain ⟨k', v'⟩ := e
    rw [minsert]
    split_ifs <;> simp

theorem minsert_append_of_gt (k : K) (v : V) (m : List (K × V))
    (h : ∀ j ∈ m.map Prod.fst, j < k) : minsert k v m = m ++ [(k, v)] := by
  induction m with
  | nil => rfl
  | cons e rest ih =>
    obtain ⟨k', v'⟩ := e
    have hk : k' < k := h k' (by simp)
    rw [minsert, if_neg (not_lt.2 (le_of_lt hk)), if_neg (ne_of_gt hk),
      ih (fun j hj => h j (by simp [hj])), List.cons_append]

theorem minsert_merase_self (k : K) (v : V) (m : List (K × V)) (h : msorted m) :
    minsert k v (merase k m) = minsert k v m := by
  apply mext _ _ (msorted_minsert _ _ _ (msorted_merase _ _ h)) (msorted_minsert _ _ _ h)
  intro j
  rw [mlookup_minsert, mlookup_minsert]
  by_cases hj : j = k
  · rw [if_pos hj, if_pos hj]
  · rw [if_neg hj, if_neg hj, mlookup_merase _ _ _ (msorted_nodup _ h), if_neg hj]

end MapHelpers

/-- The positions of the occurrences of term `t` in an analyzed token
stream, in stream order. -/
def occs (t : Str) : List (Str × Position) → List Position
  | [] => []
  | tp :: rest => if tp.1 = t then tp.2 :: occs t rest else occs t rest

/-- The positions at which term `t` occurs in the ngram analysis of `s`. -/
def positionsOf (t : Str) (s : Str) : List Position :=
  occs t (ngramsAnalyze s)

/-- One postings-list insertion: `search_coalesce(0, position)`. -/
def scStep (pl : List Position) (p : Position) : List Position :=
  (searchCoalesce pl 0 p).2

/-- The per-document update inside one insert step of
`InvertedIndex::index`. -/
def innerStep (docId : Nat) (pm : PostingsMap) (p : Position) : PostingsMap :=
  mupsert docId [] (fun pl => (searchCoalesce pl 0 p).2) pm

/-- The postings list obtained by inserting every occurrence of `t` in
`s`, in stream order, starting from the empty list. -/
def buildP (t : Str) (s : Str) : List Position :=
  (positionsOf t s).foldl scStep []

/-- The canonical postings map of term `t` over a document store: one
entry per document that contains the term. -/
def canonAt : List (Nat × Document) → Str → PostingsMap
  | [], _ => []
  | e :: rest, t =>
    if positionsOf t e.2.content = [] then canonAt rest t
    else (e.1, buildP t e.2.content) :: canonAt rest t

/-- The canonical term lookup over a document store: absent exactly when
no document contains the term. -/
def canonLook (docs : List (Nat × Document)) (t : Str) : Option PostingsMap :=
  if canonAt docs t = [] then none else some (canonAt docs t)

/-- The effect of one successful removal on a term lookup: drop the doc
id, and drop the whole entry when the postings map empties. -/
def remStrip (docId : Nat) : Option PostingsMap → Option PostingsMap
  | none => none
  | some pm => if merase docId pm = [] then none else some (merase docId pm)

/-- The reachable-state invariant of `InvertedIndex`: both maps are
key-sorted, stored documents carry their key as id, and every term
lookup agrees with the canonical postings map of the document store. -/
structure IndexWF (st : InvertedIndex) : Prop where
  tsort : msorted st.index
  dsort : msorted st.docs
  ids : ∀ e ∈ st.docs, e.2.id = e.1
  look : ∀ t, mlookup t st.index = canonLook st.docs t

theorem occs_eq_nil_iff (t : Str) (tps : List (Str × Position)) :
    occs t tps = [] ↔ t ∉ tps.map Prod.fst := by
  induction tps with
  | nil => simp [occs]
  | cons tp rest ih =>
    by_cases h : tp.1 = t
    · rw [occs, if_pos h]
      apply iff_of_false (List.cons_ne_nil _ _)
      intro hn
      exact hn (List.map_cons Prod.fst tp rest ▸ List.mem_cons.2 (Or.inl h.symm))
    · rw [occs, if_neg h, ih, List.map_cons]
      constructor
      · intro hr hc
        rcases List.mem_cons.1 hc with h3 | h3
        · exact h h3.symm
        · exact hr h3
      · intro hc hr
        exact hc (List.mem_cons_of_mem _ hr)

theorem mem_keys_canonAt (docs : List (Nat × Document)) (t : Str) (b : Nat)
    (hb : b ∈ (canonAt docs t).map Prod.fst) : b ∈ docs.map Prod.fst := by
  induction docs with
  | nil => simpa [canonAt] using hb
  | cons e rest ih =>
    rw [canonAt] at hb
    by_cases hg : positionsOf t e.2.content = []
    · rw [if_pos hg] at hb
      exact List.mem_cons_of_mem _ (ih hb)
    · rw [if_neg hg, List.map_cons, List.mem_cons] at hb
      rw [List.map_cons, List.mem_cons]
      rcases hb with hb1 | hb2
      · exact Or.inl hb1
      · exact Or.inr (ih hb2)

theorem canonAt_sorted (docs : List (Nat × Document)) (t : Str) (h : msorted docs) :
    msorted (canonAt docs t) := by
  induction docs with
  | nil => simp [canonAt, msorted]
  | cons e rest ih =>
    rw [msorted, List.map_cons, List.pairwise_cons] at h
    rw [canonAt]
    by_cases hg : positionsOf t e.2.content = []
    · rw [if_pos hg]
      exact ih h.2
    · rw [if_neg hg]
      rw [msorted, List.map_cons, List.pairwise_cons]
      exact ⟨fun b hb => h.1 b (mem_keys_canonAt rest t b hb), ih h.2⟩

theorem canonAt_lookup (docs : List (Nat × Document)) (t : Str) (j : Nat)
    (h : msorted docs) :
    mlookup j (canonAt docs t) = (mlookup j docs).bind (fun doc =>
      if positionsOf t doc.content = [] then none
      else some (buildP t doc.content)) := by
  induction docs with
  | nil => rfl
  | cons e rest ih =>
    obtain ⟨k', doc'⟩ := e
    rw [msorted, List.map_cons, List.pairwise_cons] at h
    rw [canonAt]
    by_cases hj : j = k'
    · subst hj
      have hnone : mlookup j (canonAt rest t) = none := by
        apply mlookup_eq_none_of_forall_lt
        exact fun b hb => h.1 b (mem_keys_canonAt rest t b hb)
      by_cases hg : positionsOf t doc'.content = []
      · rw [if_pos hg, hnone, mlookup, if_pos rfl, Option.some_bind, if_pos hg]
      · rw [if_neg hg, mlookup, if_pos rfl, mlookup, if_pos rfl, Option.some_bind,
          if_neg hg]
    · by_cases hg : positionsOf t doc'.content = []
      · rw [if_pos hg, ih h.2, mlookup, if_neg hj]
      · rw [if_neg hg, mlookup, if_neg hj, ih h.2, mlookup, if_neg hj]

theorem canonLook_getD (docs : List (Nat × Document)) (t : Str) :
    (canonLook docs t).getD [] = canonAt docs t := by
  rw [canonLook]
  by_cases hc : canonAt docs t = []
  · rw [if_pos hc, hc]
    rfl
  · rw [if_neg hc]
    rfl

theorem canonAt_merase (docId : Nat) (docs : List (Nat × Document)) (t : Str)
    (h : msorted docs) :
    canonAt (merase docId docs) t = merase docId (canonAt docs t) := by
  apply mext _ _ (canonAt_sorted _ _ (msorted_merase _ _ h))
    (msorted_merase _ _ (canonAt_sorted _ _ h))
  intro j
  rw [canonAt_lookup _ _ _ (msorted_merase _ _ h),
    mlookup_merase _ _ _ (msorted_nodup _ (canonAt_sorted _ _ h)),
    mlookup_merase _ _ _ (msorted_nodup _ h)]
  by_cases hj : j = docId
  · rw [if_pos hj, if_pos hj]
    rfl
  · rw [if_neg hj, if_neg hj, canonAt_lookup _ _ _ h]

theorem canonLook_merase (docId : Nat) (docs : List (Nat × Document)) (t : Str)
    (h : msorted docs) :
    canonLook (merase docId docs) t = remStrip docId (canonLook docs t) := by
  rw [canonLook, canonLook, canonAt_merase _ _ _ h]
  by_cases hc : canonAt docs t = []
  · rw [hc]
    simp [merase, remStrip]
  · rw [if_neg hc, remStrip]

theorem canonAt_minsert_none (k : Nat) (doc : Document) (docs : List (Nat × Document))
    (t : Str) (hs : msorted docs) (hk : mlookup k docs = none)
    (hg : positionsOf t doc.content = []) :
    canonAt (minsert k doc docs) t = canonAt docs t := by
  apply mext _ _ (canonAt_sorted _ _ (msorted_minsert _ _ _ hs)) (canonAt_sorted _ _ hs)
  intro j
  rw [canonAt_lookup _ _ _ (msorted_minsert _ _ _ hs), canonAt_lookup _ _ _ hs,
    mlookup_minsert]
  by_cases hj : j = k
  · rw [if_pos hj, hj, hk, Option.some_bind, if_pos hg, Option.none_bind]
  · rw [if_neg hj]

theorem canonAt_minsert_some (k : Nat) (doc : Document) (docs : List (Nat × Document))
    (t : Str) (hs : msorted docs) (hk : mlookup k docs = none)
    (hg : positionsOf t doc.content ≠ []) :
    canonAt (minsert k doc docs) t
      = minsert k (buildP t doc.content) (canonAt docs t) := by
  apply mext _ _ (canonAt_sorted _ _ (msorted_minsert _ _ _ hs))
    (msorted_minsert _ _ _ (canonAt_sorted _ _ hs))
  intro j
  rw [canonAt_lookup _ _ _ (msorted_minsert _ _ _ hs), mlookup_minsert, mlookup_minsert]
  by_cases hj : j = k
  · rw [if_pos hj, if_pos hj, Option.some_bind, if_neg hg]
  · rw [if_neg hj, if_neg hj, canonAt_lookup _ _ _ hs]

theorem insertPhase_lookup (docId : Nat) (tps : List (Str × Position))
    (terms : List (Str × PostingsMap)) (t : Str) :
    mlookup t (insertPhase docId tps terms) =
      if occs t tps = [] then mlookup t terms
      else some ((occs t tps).foldl (innerStep docId) ((mlookup t terms).getD [])) := by
  induction tps generalizing terms with
  | nil => simp [insertPhase, occs]
  | cons tp rest ih =>
    refine (ih (termInsert docId terms tp)).trans ?_
    by_cases h : tp.1 = t
    · subst h
      have hti : termInsert docId terms tp
          = mupsert tp.1 [] (fun pm => innerStep docId pm tp.2) terms := rfl
      have hl : mlookup tp.1 (termInsert docId terms tp)
          = some (innerStep docId ((mlookup tp.1 terms).getD []) tp.2) := by
        rw [hti, mlookup_mupsert, if_pos rfl]
      have hocc : occs tp.1 (tp :: rest) = tp.2 :: occs tp.1 rest := by
        rw [occs, if_pos rfl]
      rw [hocc, hl, if_neg (List.cons_ne_nil _ _), List.foldl_cons]
      by_cases hps : occs tp.1 rest = []
      · rw [if_pos hps, hps, List.foldl_nil]
      · rw [if_neg hps, Option.getD_some]
    · have hti : termInsert docId terms tp
          = mupsert tp.1 [] (fun pm => innerStep docId pm tp.2) terms := rfl
      have hl : mlookup t (termInsert docId terms tp) = mlookup t terms := by
        rw [hti, mlookup_mupsert, if_neg (fun he => h he.symm)]
      have hocc : occs t (tp :: rest) = occs t rest := by
        rw [occs, if_neg h]
      rw [hocc, hl]

theorem insertPhase_sorted (docId : Nat) (tps : List (Str × Position))
    (terms : List (Str × PostingsMap)) (h : msorted terms) :
    msorted (insertPhase docId tps terms) := by
  induction tps generalizing terms with
  | nil => exact h
  | cons tp rest ih => exact ih _ (msorted_minsert _ _ _ h)

theorem foldl_innerStep_lookup_self (docId : Nat) (ps : List Position)
    (pm : PostingsMap) (hne : ps ≠ []) :
    mlookup docId (ps.foldl (innerStep docId) pm)
      = some (ps.foldl scStep ((mlookup docId pm).getD [])) := by
  induction ps generalizing pm with
  | nil => exact absurd rfl hne
  | cons p rest ih =>
    rw [List.foldl_cons, List.foldl_cons]
    have his : innerStep docId pm p
        = mupsert docId [] (fun pl => scStep pl p) pm := rfl
    have hl : mlookup docId (innerStep docId pm p)
        = some (scStep ((mlookup docId pm).getD []) p) := by
      rw [his, mlookup_mupsert, if_pos rfl]
    by_cases h : rest = []
    · subst h
      rw [List.foldl_nil, List.foldl_nil, hl]
    · rw [ih _ h, hl, Option.getD_some]

theorem foldl_innerStep_lookup_ne (docId j : Nat) (hj : j ≠ docId)
    (ps : List Position) (pm : PostingsMap) :
    mlookup j (ps.foldl (innerStep docId) pm) = mlookup j pm := by
  induction ps generalizing pm with
  | nil => rfl
  | cons p rest ih =>
    rw [List.foldl_cons, ih]
    have his : innerStep docId pm p
        = mupsert docId [] (fun pl => scStep pl p) pm := rfl
    rw [his, mlookup_mupsert, if_neg hj]

theorem foldl_innerStep_sorted (docId : Nat) (ps : List Position) (pm : PostingsMap)
    (h : msorted pm) : msorted (ps.foldl (innerStep docId) pm) := by
  induction ps generalizing pm with
  | nil => exact h
  | cons p rest ih =>
    rw [List.foldl_cons]
    exact ih _ (msorted_minsert _ _ _ h)

theorem insertPhase_canonical (d : Document) (docs : List (Nat × Document))
    (terms : List (Str × PostingsMap)) (hds : msorted docs)
    (hfresh : mlookup d.id docs = none)
    (hcl : ∀ t, mlookup t terms = canonLook docs t) :
    ∀ t, mlookup t (insertPhase d.id (ngramsAnalyze d.content) terms)
      = canonLook (minsert d.id d docs) t := by
  intro t
  rw [insertPhase_lookup, hcl t, canonLook_getD]
  by_cases hps : occs t (ngramsAnalyze d.content) = []
  · rw [if_pos hps]
    have hg : positionsOf t d.content = [] := hps
    rw [canonLook, canonLook, canonAt_minsert_none d.id d docs t hds hfresh hg]
  · rw [if_neg hps]
    have hg : positionsOf t d.content ≠ [] := hps
    have hca : canonAt (minsert d.id d docs) t
        = minsert d.id (buildP t d.content) (canonAt docs t) :=
      canonAt_minsert_some d.id d docs t hds hfresh hg
    have hne2 : canonAt (minsert d.id d docs) t ≠ [] := by
      rw [hca]
      exact minsert_ne_nil _ _ _
    rw [canonLook, if_neg hne2, hca]
    congr 1
    apply mext _ _ (foldl_innerStep_sorted _ _ _ (canonAt_sorted _ _ hds))
      (msorted_minsert _ _ _ (canonAt_sorted _ _ hds))
    intro j
    rw [mlookup_minsert]
    by_cases hj : j = d.id
    · subst hj
      rw [foldl_innerStep_lookup_self _ _ _ hps, if_pos rfl]
      have hnone : mlookup d.id (canonAt docs t) = none := by
        rw [canonAt_lookup _ _ _ hds, hfresh]
        rfl
      rw [hnone]
      rfl
    · rw [foldl_innerStep_lookup_ne _ _ hj, if_neg hj]

theorem remStrip_idem (docId : Nat) (o : Option PostingsMap)
    (ho : ∀ pm2, o = some pm2 → (pm2.map Prod.fst).Nodup) :
    remStrip docId (remStrip docId o) = remStrip docId o := by
  cases o with
  | none => rfl
  | some pm =>
    have hnd := ho pm rfl
    by_cases h : merase docId pm = []
    · rw [remStrip, if_pos h]
      rfl
    · have hfix : merase docId (merase docId pm) = merase docId pm :=
        merase_of_not_mem _ _ (not_mem_keys_merase docId pm hnd)
      rw [remStrip, if_neg h, remStrip, hfix, if_neg h]

theorem removalPhase_lookup (docId : Nat) (ts : List Str)
    (terms terms' : List (Str × PostingsMap))
    (hs : msorted terms) (hv : ∀ e ∈ terms, msorted e.2)
    (hr : removalPhase docId ts terms = Except.ok terms') :
    msorted terms' ∧ (∀ e ∈ terms', msorted e.2) ∧
      ∀ t, mlookup t terms' =
        if t ∈ ts then remStrip docId (mlookup t terms) else mlookup t terms := by
  induction ts generalizing terms with
  | nil =>
    rw [removalPhase] at hr
    injection hr with h2
    subst h2
    exact ⟨hs, hv, fun t => by simp⟩
  | cons t0 rest ih =>
    rw [removalPhase] at hr
    cases hstep : removeStep docId terms t0 with
    | error e =>
      rw [hstep] at hr
      exact Except.noConfusion hr
    | ok terms1 =>
      rw [hstep] at hr
      rw [removeStep] at hstep
      cases hl0 : mlookup t0 terms with
      | none =>
        rw [hl0] at hstep
        exact Except.noConfusion hstep
      | some pm =>
        rw [hl0] at hstep
        dsimp only at hstep
        have hpm : msorted pm := hv (t0, pm) (mlookup_mem _ _ _ hl0)
        have key : msorted terms1 ∧ (∀ e ∈ terms1, msorted e.2) ∧
            ∀ t, mlookup t terms1 =
              if t = t0 then remStrip docId (mlookup t terms)
              else mlookup t terms := by
          by_cases hemp : merase docId pm = []
          · rw [if_pos hemp] at hstep
            injection hstep with h4
            subst h4
            refine ⟨msorted_merase _ _ hs, ?_, ?_⟩
            · exact fun e he => hv e (mem_of_mem_merase _ _ _ he)
            · intro t
              rw [mlookup_merase _ _ _ (msorted_nodup _ hs)]
              by_cases ht : t = t0
              · rw [if_pos ht, if_pos ht, ht, hl0, remStrip, if_pos hemp]
              · rw [if_neg ht, if_neg ht]
          · rw [if_neg hemp] at hstep
            injection hstep with h4
            subst h4
            refine ⟨msorted_minsert _ _ _ hs, ?_, ?_⟩
            · intro e he
              rcases mem_of_mem_minsert _ _ _ _ he with h5 | h5
              · rw [h5]
                exact msorted_merase _ _ hpm
              · exact hv e h5
            · intro t
              rw [mlookup_minsert]
              by_cases ht : t = t0
              · rw [if_pos ht, if_pos ht, ht, hl0, remStrip, if_neg hemp]
              · rw [if_neg ht, if_neg ht]
        obtain ⟨s1, v1, lk1⟩ := key
        obtain ⟨s2, v2, lk2⟩ := ih terms1 s1 v1 hr
        refine ⟨s2, v2, ?_⟩
        intro t
        rw [lk2 t, lk1 t]
        by_cases h1 : t ∈ rest <;> by_cases h2 : t = t0
        · subst h2
          rw [if_pos h1, if_pos rfl, if_pos (List.mem_cons_self _ _), hl0]
          exact remStrip_idem docId (some pm)
            (fun pm2 he => (Option.some.inj he) ▸ (msorted_nodup _ hpm))
        · rw [if_pos h1, if_neg h2, if_pos (List.mem_cons.2 (Or.inr h1))]
        · subst h2
          rw [if_neg h1, if_pos rfl, if_pos (List.mem_cons_self _ _), hl0]
        · rw [if_neg h1, if_neg h2,
            if_neg (fun hc => by
              rcases List.mem_cons.1 hc with h3 | h3
              exacts [h2 h3, h1 h3])]

theorem removal_canonical (docId : Nat) (prevDoc : Document)
    (docs : List (Nat × Document)) (terms terms' : List (Str × PostingsMap))
    (hds : msorted docs) (hts : msorted terms) (hv : ∀ e ∈ terms, msorted e.2)
    (hdl : mlookup docId docs = some prevDoc)
    (hcl : ∀ t, mlookup t terms = canonLook docs t)
    (hr : removalPhase docId ((ngramsAnalyze prevDoc.content).map (fun tp => tp.1))
        terms = Except.ok terms') :
    ∀ t, mlookup t terms' = canonLook (merase docId docs) t := by
  obtain ⟨-, -, lk⟩ := removalPhase_lookup docId _ terms terms' hts hv hr
  intro t
  rw [lk t, hcl t, canonLook_merase docId docs t hds]
  by_cases hmem : t ∈ ((ngramsAnalyze prevDoc.content).map (fun tp => tp.1))
  · rw [if_pos hmem]
  · rw [if_neg hmem]
    have hmem2 : t ∉ (ngramsAnalyze prevDoc.content).map Prod.fst := hmem
    have hpos : positionsOf t prevDoc.content = [] :=
      (occs_eq_nil_iff t (ngramsAnalyze prevDoc.content)).2 hmem2
    have hnone : mlookup docId (canonAt docs t) = none := by
      rw [canonAt_lookup _ _ _ hds, hdl, Option.some_bind, if_pos hpos]
    have hnm : merase docId (canonAt docs t) = canonAt docs t :=
      merase_of_not_mem _ _ ((mlookup_eq_none_iff _ _).1 hnone)
    by_cases hc : canonAt docs t = []
    · rw [canonLook, if_pos hc]
      rfl
    · rw [canonLook, if_neg hc, remStrip, hnm, if_neg hc]

theorem indexDoc_preserves (st st' : InvertedIndex) (d : Document)
    (hwf : IndexWF st) (h : st.indexDoc d = Except.ok st') :
    IndexWF st' ∧ st'.docs = minsert d.id d st.docs := by
  simp only [InvertedIndex.indexDoc] at h
  cases hprev : mlookup d.id st.docs with
  | none =>
    rw [hprev] at h
    dsimp only at h
    injection h with h2
    subst h2
    refine ⟨⟨insertPhase_sorted _ _ _ hwf.tsort, msorted_minsert _ _ _ hwf.dsort,
      ?_, ?_⟩, rfl⟩
    · intro e he
      rcases mem_of_mem_minsert _ _ _ _ he with h5 | h5
      · rw [h5]
      · exact hwf.ids e h5
    · exact insertPhase_canonical d st.docs st.index hwf.dsort hprev hwf.look
  | some prevDoc =>
    rw [hprev] at h
    dsimp only at h
    cases hrp : removalPhase d.id
        ((ngramsAnalyze prevDoc.content).map (fun tp => tp.1)) st.index with
    | error e =>
      rw [hrp] at h
      exact Except.noConfusion h
    | ok terms1 =>
      rw [hrp] at h
      dsimp only at h
      injection h with h2
      subst h2
      have hvals : ∀ e ∈ st.index, msorted e.2 := by
        intro e he
        have hl := mlookup_of_mem_sorted st.index e hwf.tsort he
        rw [hwf.look e.1] at hl
        rw [canonLook] at hl
        by_cases hc : canonAt st.docs e.1 = []
        · rw [if_pos hc] at hl
          exact Option.noConfusion hl
        · rw [if_neg hc] at hl
          rw [← Option.some.inj hl]
          exact canonAt_sorted _ _ hwf.dsort
      obtain ⟨s1, v1, -⟩ := removalPhase_lookup d.id _ st.index terms1
        hwf.tsort hvals hrp
      have hcanon1 := removal_canonical d.id prevDoc st.docs st.index terms1
        hwf.dsort hwf.tsort hvals hprev hwf.look hrp
      have hfresh0 : mlookup d.id (merase d.id st.docs) = none := by
        rw [mlookup_merase _ _ _ (msorted_nodup _ hwf.dsort), if_pos rfl]
      have hins := insertPhase_canonical d (merase d.id st.docs) terms1
        (msorted_merase _ _ hwf.dsort) hfresh0 hcanon1
      refine ⟨⟨insertPhase_sorted _ _ _ s1, msorted_minsert _ _ _ hwf.dsort,
        ?_, ?_⟩, rfl⟩
      · intro e he
        rcases mem_of_mem_minsert _ _ _ _ he with h5 | h5
        · rw [h5]
        · exact hwf.ids e h5
      · intro t
        rw [hins t, minsert_merase_self _ _ _ hwf.dsort]

theorem indexWF_new : IndexWF InvertedIndex.new := by
  refine ⟨List.Pairwise.nil, List.Pairwise.nil, ?_, ?_⟩
  · intro e he
    exact absurd he (List.not_mem_nil e)
  · intro t
    rfl

theorem buildFrom_wf (ds : List Document) (st st' : InvertedIndex)
    (hwf : IndexWF st) (h : buildFrom st ds = Except.ok st') : IndexWF st' := by
  induction ds generalizing st with
  | nil =>
    rw [buildFrom] at h
    injection h with h2
    subst h2
    exact hwf
  | cons d rest ih =>
    rw [buildFrom] at h
    cases hd : st.indexDoc d with
    | error e =>
      rw [hd] at h
      exact Except.noConfusion h
    | ok st1 =>
      rw [hd] at h
      exact ih st1 (indexDoc_preserves st st1 d hwf hd).1 h

theorem buildFrom_fresh (ds : List (Nat × Document)) (acc : InvertedIndex)
    (hwf : IndexWF acc) (hsort : msorted (acc.docs ++ ds))
    (hids : ∀ e ∈ ds, e.2.id = e.1) :
    ∃ st', buildFrom acc (ds.map Prod.snd) = Except.ok st' ∧ IndexWF st' ∧
      st'.docs = acc.docs ++ ds := by
  induction ds generalizing acc with
  | nil => exact ⟨acc, rfl, hwf, (List.append_nil _).symm⟩
  | cons p rest ih =>
    have hid : p.2.id = p.1 := hids p (List.mem_cons_self _ _)
    have hgt : ∀ j ∈ acc.docs.map Prod.fst, j < p.1 := by
      have hx := hsort
      rw [msorted, List.map_append, List.pairwise_append] at hx
      intro j hj
      exact hx.2.2 j hj p.1 (by simp)
    have hfresh : mlookup p.2.id acc.docs = none := by
      rw [hid, mlookup_eq_none_iff]
      intro hmem
      exact lt_irrefl _ (hgt _ hmem)
    have hd : acc.indexDoc p.2 = Except.ok
        ⟨insertPhase p.2.id (ngramsAnalyze p.2.content) acc.index,
          minsert p.2.id p.2 acc.docs⟩ := by
      simp only [InvertedIndex.indexDoc]
      rw [hfresh]
    obtain ⟨hwf1, -⟩ := indexDoc_preserves acc _ p.2 hwf hd
    have hdocs1 : minsert p.2.id p.2 acc.docs = acc.docs ++ [p] := by
      rw [hid, minsert_append_of_gt _ _ _ hgt, Prod.mk.eta]
    have hsort2 : msorted ((InvertedIndex.mk
        (insertPhase p.2.id (ngramsAnalyze p.2.content) acc.index)
        (minsert p.2.id p.2 acc.docs)).docs ++ rest) := by
      dsimp only
      rw [hdocs1, List.append_assoc, List.singleton_append]
      exact hsort
    obtain ⟨st', hb, hwfx, hdx⟩ := ih (InvertedIndex.mk
        (insertPhase p.2.id (ngramsAnalyze p.2.content) acc.index)
        (minsert p.2.id p.2 acc.docs)) hwf1 hsort2
      (fun e he => hids e (List.mem_cons_of_mem _ he))
    refine ⟨st', ?_, hwfx, ?_⟩
    · rw [List.map_cons, buildFrom, hd]
      exact hb
    · rw [hdx]
      dsimp only
      rw [hdocs1, List.append_assoc, List.singleton_append]

theorem wf_unique (s1 s2 : InvertedIndex) (h1 : IndexWF s1) (h2 : IndexWF s2)
    (hd : s1.docs = s2.docs) : s1 = s2 := by
  obtain ⟨i1, d1⟩ := s1
  obtain ⟨i2, d2⟩ := s2
  dsimp only at hd
  subst hd
  have hidx : i1 = i2 := by
    apply mext _ _ h1.tsort h2.tsort
    intro t
    rw [h1.look t, h2.look t]
  rw [hidx]

theorem rebuild_of_wf (st : InvertedIndex) (hwf : IndexWF st) :
    buildIndex (st.docs.map Prod.snd) = Except.ok st := by
  obtain ⟨st2, hb, hwf2, hd2⟩ := buildFrom_fresh st.docs InvertedIndex.new
    indexWF_new hwf.dsort hwf.ids
  have he : st2 = st := wf_unique st2 st hwf2 hwf (by rw [hd2]; rfl)
  rw [buildIndex, hb, he]

/-- C2 (amended): when re-indexing a document whose id is already present
completes without panicking, the resulting state is byte-identical to the
state obtained by building a fresh index over the resulting document set.
The claim as stated is refuted separately: the re-index call can panic on
duplicate previous terms, so no resulting state need exist. -/
theorem reindex_equals_fresh_build (ds : List Document) (d : Document)
    (st st' : InvertedIndex) (h1 : buildIndex ds = Except.ok st)
    (h2 : mlookup d.id st.docs ≠ none) (h3 : st.indexDoc d = Except.ok st') :
    buildIndex (st'.docs.map Prod.snd) = Except.ok st' :=
  rebuild_of_wf st'
    (indexDoc_preserves st st' d
      (buildFrom_wf ds InvertedIndex.new st indexWF_new h1) h3).1

/-- C2 counterexample to the claim as stated: for the freshly built index
over `{0: "to to"}` the id 0 is present, yet `index({0: "y"})` ends in
the removal loop's unwrap panic instead of yielding any index state at
all, so the claimed fresh-build equality has no state to hold of. -/
theorem reindex_claim_counterexample :
    buildIndex [⟨0, str "to to"⟩] =
        Except.ok (getOk (buildIndex [⟨0, str "to to"⟩])) ∧
      mlookup 0 (getOk (buildIndex [⟨0, str "to to"⟩])).docs ≠ none ∧
      (getOk (buildIndex [⟨0, str "to to"⟩])).indexDoc ⟨0, str "y"⟩ =
        Except.error "called Option::unwrap() on a None value" :=
  ⟨rfl, by decide, rfl⟩

/-- C2 witness: rebuilding from the state obtained by indexing
`{0: "ab"}` and then re-indexing `{0: "c"}` reproduces that state. -/
theorem reindex_equals_fresh_build_witness :
    buildIndex ((getOk ((getOk (buildIndex [⟨0, str "ab"⟩])).indexDoc
        ⟨0, str "c"⟩)).docs.map Prod.snd)
      = Except.ok (getOk ((getOk (buildIndex [⟨0, str "ab"⟩])).indexDoc
        ⟨0, str "c"⟩)) :=
  reindex_equals_fresh_build [⟨0, str "ab"⟩] ⟨0, str "c"⟩
    (getOk (buildIndex [⟨0, str "ab"⟩]))
    (getOk ((getOk (buildIndex [⟨0, str "ab"⟩])).indexDoc ⟨0, str "c"⟩))
    rfl (by decide) rfl
